import Mathlib

/-
Shallow embedding of `huggingface_utils.py`: a local on-disk cache of model
files fetched from a remote repository, with least-recently-used eviction
against a free-space floor, a per-repository metadata cache, and an
orchestrator that mines candidate filename strings out of an arbitrary
nested object and resolves each against the repository file list.

Python dicts are modelled as insertion-ordered association lists
(assignment to an existing key keeps its position, a new key is appended);
the filesystem is modelled as an association list from path to byte size
plus a free-byte counter; wall-clock time is a monotone counter.  The two
external collaborators (the remote metadata listing and the byte-transfer
download) are parameters bundled in `Oracle`.
-/

deriving instance DecidableEq for Except

namespace HF

/-- Lexicographic comparison of character lists by code point, the order
Python uses to compare strings inside tuple sorting. -/
def charsLe : List Char → List Char → Bool
  | [], _ => true
  | _ :: _, [] => false
  | a :: as, b :: bs =>
    if a.toNat = b.toNat then charsLe as bs else decide (a.toNat < b.toNat)

/-- Python tuple ordering `(access_time, file_path) <= (access_time, file_path)`:
first by the numeric component, ties by code-point string order. -/
def pairLeB (a b : Nat × String) : Bool :=
  decide (a.1 < b.1) || (decide (a.1 = b.1) && charsLe a.2.data b.2.data)

/-- `isPreList p l` holds when the character list `p` is an initial segment
of `l`; the character-level content of Python's `str.startswith`. -/
def isPreList : List Char → List Char → Bool
  | [], _ => true
  | _ :: _, [] => false
  | a :: as, b :: bs => if a = b then isPreList as bs else false

/-- Python `s.startswith(pre)`. -/
def startsWithB (s pre : String) : Bool :=
  isPreList pre.data s.data

/-- Python `s.endswith(suf)`. -/
def endsWithB (s suf : String) : Bool :=
  isPreList suf.data.reverse s.data.reverse

/-- Helper for `basename`: the characters after the last `'/'`. -/
def lastComp (cur : List Char) : List Char → List Char
  | [] => cur
  | c :: rest => if c = '/' then lastComp [] rest else lastComp (cur ++ [c]) rest

/-- Python `os.path.basename`: everything after the final slash. -/
def basename (p : String) : String :=
  String.mk (lastComp [] p.data)

/-- Python `os.path.join(base, p)`: an absolute second component replaces
the base, otherwise the two are joined with a separator. -/
def joinPath (base p : String) : String :=
  if startsWithB p "/" then p else base ++ "/" ++ p

/-- Truthiness of Python `data.strip()`: the string is non-empty after
trimming surrounding whitespace, i.e. it contains a non-whitespace
character. -/
def strip_nonempty (s : String) : Bool :=
  s.data.any (fun c => !c.isWhitespace)

/-- Dict lookup: value stored at key `k`, if any. -/
def lookupA {α : Type} (l : List (String × α)) (k : String) : Option α :=
  (l.find? (fun p => p.1 = k)).map Prod.snd

/-- Dict assignment `d[k] = v`: an existing key keeps its position, a new
key is appended (Python insertion order). -/
def updateA {α : Type} : List (String × α) → String → α → List (String × α)
  | [], k, v => [(k, v)]
  | p :: rest, k, v => if p.1 = k then (k, v) :: rest else p :: updateA rest k v

/-- Dict deletion `del d[k]`. -/
def eraseA {α : Type} (l : List (String × α)) (k : String) : List (String × α) :=
  l.filter (fun p => ¬ p.1 = k)

/-- Keys of a dict, in order. -/
def keysA {α : Type} (l : List (String × α)) : List String :=
  l.map Prod.fst

/-- `MINIMUM_FREE_SPACE_GB = 10`. -/
def MINIMUM_FREE_SPACE_GB : Nat := 10

/-- The cache root `os.path.join(os.path.dirname(os.path.abspath(__file__)), "models")`,
a fixed absolute directory computed once; its concrete text is irrelevant,
only that every cached path is formed by joining beneath it. -/
def local_base_dir : String := "/ComfyUI/models"

/-- The mutable module state: the three module-level dicts
(`_file_access_times`, `_repo_files_cache`, `_repo_file_sizes_cache`),
the filesystem (path → size, plus free bytes of the one volume), and a
wall clock. -/
structure St where
  file_access_times : List (String × Nat)
  repo_files_cache : List (String × List String)
  repo_file_sizes_cache : List (String × List (String × Nat))
  disk : List (String × Nat)
  free : Nat
  clock : Nat
deriving Repr, DecidableEq

/-- A file exists on disk. -/
def fileExists (st : St) (p : String) : Bool :=
  (lookupA st.disk p).isSome

/-- Python `os.path.getsize`. -/
def getsize (st : St) (p : String) : Nat :=
  (lookupA st.disk p).getD 0

/-- Observable events: an attempted remote metadata listing, an
`delete_old_files_until_space` entry, a file eviction, an attempted
external download, the two warnings, and an access-time update. -/
inductive Ev where
  | metaFetch (repo_id : String)
  | ensure (target_dir : String) (required_bytes : Nat)
  | evict (file_path : String)
  | fetch (repo_id : String) (filename : String)
  | warnNoMatch (candidate : String)
  | warnMulti (candidate : String)
  | touch (file_path : String)
deriving Repr, DecidableEq

/-- The external collaborators: the remote metadata listing
(`HfApi.model_info`; `none` is a raised error) and whether a given
download (`hf_hub_download`) succeeds. -/
structure Oracle where
  remote : String → Option (List (String × Nat))
  fetchOk : String → String → Bool

/-- `update_access_time(file_path)`: record the current time in
`_file_access_times` and advance the clock (the best-effort `os.utime`
touches only filesystem metadata we do not track separately). -/
def update_access_time (st : St) (file_path : String) : St × List Ev :=
  ({ st with
      file_access_times := updateA st.file_access_times file_path st.clock,
      clock := st.clock + 1 },
   [Ev.touch file_path])

/-- The eviction candidates built by `delete_old_files_until_space`:
entries of `_file_access_times` whose path exists on disk and starts with
the cache root, as `(access_time, file_path)` pairs in index order. -/
def evictionCandidates (st : St) : List (Nat × String) :=
  (st.file_access_times.filter
      (fun pt => fileExists st pt.1 && startsWithB pt.1 local_base_dir)).map
    (fun pt => (pt.2, pt.1))

/-- Stable insertion into a sorted list (new element goes after equals). -/
def insertSorted (x : Nat × String) : List (Nat × String) → List (Nat × String)
  | [] => [x]
  | y :: ys => if pairLeB y x then y :: insertSorted x ys else x :: y :: ys

/-- Python `files_with_times.sort()`: stable sort of `(access_time, path)`
pairs under tuple order. -/
def sortPairs (l : List (Nat × String)) : List (Nat × String) :=
  l.foldl (fun acc x => insertSorted x acc) []

/-- The deletion loop of `delete_old_files_until_space`: walk the sorted
candidates, stopping once `freed_space >= space_to_free`, deleting each
file (filesystem entry and `_file_access_times` entry) and accumulating
its size.  Returns the final state and the deleted paths in order. -/
def evictLoop (st : St) (space_to_free freed : Nat) :
    List (Nat × String) → St × List String
  | [] => (st, [])
  | (_, file_path) :: rest =>
    if freed ≥ space_to_free then (st, [])
    else
      let file_size := getsize st file_path
      let st' : St :=
        { st with
            disk := eraseA st.disk file_path,
            file_access_times := eraseA st.file_access_times file_path,
            free := st.free + file_size }
      let res := evictLoop st' space_to_free (freed + file_size) rest
      (res.1, file_path :: res.2)

/-- `delete_old_files_until_space(target_dir, required_bytes)`. -/
def delete_old_files_until_space (st : St) (target_dir : String)
    (required_bytes : Nat) : St × List Ev :=
  let minimum_free := MINIMUM_FREE_SPACE_GB * 1024 * 1024 * 1024
  let needed_space := required_bytes + minimum_free
  if st.free ≥ needed_space then
    (st, [Ev.ensure target_dir required_bytes])
  else
    let space_to_free := needed_space - st.free
    let res := evictLoop st space_to_free 0 (sortPairs (evictionCandidates st))
    (res.1, Ev.ensure target_dir required_bytes :: res.2.map Ev.evict)

/-- `list_huggingface_repo_files(repo_id)`: one remote metadata call; on
success records the filename → size dict in `_repo_file_sizes_cache` and
returns the filename list; a failed call raises before caching anything. -/
def list_huggingface_repo_files (o : Oracle) (st : St) (repo_id : String) :
    St × List Ev × Except Unit (List String) :=
  match o.remote repo_id with
  | none => (st, [Ev.metaFetch repo_id], Except.error ())
  | some siblings =>
    let files_list := siblings.map Prod.fst
    let sizes_dict := siblings
    ({ st with
        repo_file_sizes_cache := updateA st.repo_file_sizes_cache repo_id sizes_dict },
     [Ev.metaFetch repo_id], Except.ok files_list)

/-- `get_repo_files(repo_id)`: memoized file list per repository. -/
def get_repo_files (o : Oracle) (st : St) (repo_id : String) :
    St × List Ev × Except Unit (List String) :=
  match lookupA st.repo_files_cache repo_id with
  | some files => (st, [], Except.ok files)
  | none =>
    match list_huggingface_repo_files o st repo_id with
    | (st', evs, Except.error e) => (st', evs, Except.error e)
    | (st', evs, Except.ok files) =>
      ({ st' with repo_files_cache := updateA st'.repo_files_cache repo_id files },
       evs, Except.ok files)

/-- `get_file_size(repo_id, filename)`: if the sizes cache misses the
repo it first calls `get_repo_files`, then indexes
`_repo_file_sizes_cache[repo_id]` directly (a still-missing entry is a
raised `KeyError`), returning `.get(filename, 0)`. -/
def get_file_size (o : Oracle) (st : St) (repo_id filename : String) :
    St × List Ev × Except Unit Nat :=
  match lookupA st.repo_file_sizes_cache repo_id with
  | some sizes => (st, [], Except.ok ((lookupA sizes filename).getD 0))
  | none =>
    match get_repo_files o st repo_id with
    | (st', evs, Except.error e) => (st', evs, Except.error e)
    | (st', evs, Except.ok _) =>
      match lookupA st'.repo_file_sizes_cache repo_id with
      | some sizes => (st', evs, Except.ok ((lookupA sizes filename).getD 0))
      | none => (st', evs, Except.error ())

/-- `download_huggingface_model(repo_id, filename)`: look up the size,
free space, then run the external download and touch the result.
Modelled from the spec for the external collaborator: a successful
`hf_hub_download(repo_id, filename, local_dir=local_base_dir)` deposits
the file under the cache root, mirroring the repository-relative path
exactly, and returns that path; a failed one raises. -/
def download_huggingface_model (o : Oracle) (st : St) (repo_id filename : String) :
    St × List Ev × Except Unit String :=
  match get_file_size o st repo_id filename with
  | (st1, evs1, Except.error e) => (st1, evs1, Except.error e)
  | (st1, evs1, Except.ok file_size_bytes) =>
    let res2 := delete_old_files_until_space st1 local_base_dir file_size_bytes
    if o.fetchOk repo_id filename then
      let file_path := joinPath local_base_dir filename
      let st3 : St :=
        { res2.1 with
            disk := updateA res2.1.disk file_path file_size_bytes,
            free := res2.1.free - file_size_bytes }
      let res4 := update_access_time st3 file_path
      (res4.1, evs1 ++ res2.2 ++ [Ev.fetch repo_id filename] ++ res4.2,
       Except.ok file_path)
    else
      (res2.1, evs1 ++ res2.2 ++ [Ev.fetch repo_id filename], Except.error ())

/-- The arbitrary nested object fed to `download_models`: mappings,
sequences, strings and non-string scalars. -/
inductive Value where
  | str (s : String)
  | num (n : Int)
  | boolV (b : Bool)
  | null
  | dict (entries : List (String × Value))
  | arr (items : List Value)
deriving Repr

/-- `found.add(s)` on a Python set, modelled as an insertion-ordered
deduplicating list. -/
def insertUniq (l : List String) (s : String) : List String :=
  if s ∈ l then l else l ++ [s]

/-- The inner `find_all_strings(data, found)` of `download_models`:
descend dict values (ignoring keys) and list items; add a string leaf
when `data.strip()` is truthy. -/
def find_all_strings : Value → List String → List String
  | .str s, found => if strip_nonempty s then insertUniq found s else found
  | .num _, found => found
  | .boolV _, found => found
  | .null, found => found
  | .dict [], found => found
  | .dict ((_, v) :: rest), found => find_all_strings (.dict rest) (find_all_strings v found)
  | .arr [], found => found
  | .arr (v :: rest), found => find_all_strings (.arr rest) (find_all_strings v found)

/-- Specification-side predicate for the mining claim: `s` occurs as a
string leaf of the value (descending through mapping values, ignoring
keys, and sequence elements). -/
def isStringLeaf (s : String) : Value → Bool
  | .str t => t = s
  | .num _ => false
  | .boolV _ => false
  | .null => false
  | .dict [] => false
  | .dict ((_, v) :: rest) => isStringLeaf s v || isStringLeaf s (.dict rest)
  | .arr [] => false
  | .arr (v :: rest) => isStringLeaf s v || isStringLeaf s (.arr rest)

/-- The per-match tail of the `download_models` loop body, from
`repo_file_path = matches[0]` on: reuse the local copy (touching it) or
download it. -/
def handleMatch (o : Oracle) (st : St) (repo_id repo_file_path : String) :
    St × List Ev × Except Unit (Option String) :=
  let local_file_path := joinPath local_base_dir repo_file_path
  if fileExists st local_file_path then
    let res := update_access_time st local_file_path
    (res.1, res.2, Except.ok (some local_file_path))
  else
    match download_huggingface_model o st repo_id repo_file_path with
    | (st', evs, Except.error e) => (st', evs, Except.error e)
    | (st', evs, Except.ok downloaded_path) =>
      (st', evs, Except.ok (some downloaded_path))

/-- One iteration of the `download_models` loop for one candidate:
compute the basename matches, skip (warning only for `.safetensors`) on
zero matches, warn on multiple matches, then handle `matches[0]`.
`some path` means the path was appended to `downloaded_paths`. -/
def processCandidate (o : Oracle) (repo_files : List String) (st : St)
    (repo_id potential_filename : String) :
    St × List Ev × Except Unit (Option String) :=
  let matchList := repo_files.filter (fun f => basename f = potential_filename)
  match matchList with
  | [] =>
    if endsWithB potential_filename ".safetensors" then
      (st, [Ev.warnNoMatch potential_filename], Except.ok none)
    else
      (st, [], Except.ok none)
  | repo_file_path :: restMatches =>
    let warnEvs := if restMatches.isEmpty then [] else [Ev.warnMulti potential_filename]
    match handleMatch o st repo_id repo_file_path with
    | (st', evs, r) => (st', warnEvs ++ evs, r)

/-- The `download_models` loop over all candidates, accumulating
`downloaded_paths`; a raised error abandons the accumulated list and the
remaining candidates. -/
def processList (o : Oracle) (repo_files : List String) (repo_id : String)
    (st : St) : List String → St × List Ev × Except Unit (List String)
  | [] => (st, [], Except.ok [])
  | c :: rest =>
    match processCandidate o repo_files st repo_id c with
    | (st', evs, Except.error e) => (st', evs, Except.error e)
    | (st', evs, Except.ok none) =>
      match processList o repo_files repo_id st' rest with
      | (st'', evs', r) => (st'', evs ++ evs', r)
    | (st', evs, Except.ok (some p)) =>
      match processList o repo_files repo_id st' rest with
      | (st'', evs', Except.error e) => (st'', evs ++ evs', Except.error e)
      | (st'', evs', Except.ok ps) => (st'', evs ++ evs', Except.ok (p :: ps))

/-- `download_models(obj, repo_id)`: mine candidate strings, return `[]`
immediately when none, otherwise fetch the repository file list and run
the per-candidate loop. -/
def download_models (o : Oracle) (st : St) (obj : Value) (repo_id : String) :
    St × List Ev × Except Unit (List String) :=
  let all_strings := find_all_strings obj []
  if all_strings.isEmpty then
    (st, [], Except.ok [])
  else
    match get_repo_files o st repo_id with
    | (st', evs, Except.error e) => (st', evs, Except.error e)
    | (st', evs, Except.ok repo_files) =>
      match processList o repo_files repo_id st' all_strings with
      | (st'', evs', r) => (st'', evs ++ evs', r)

/-- The space threshold computed by `delete_old_files_until_space`:
`required_bytes + MINIMUM_FREE_SPACE_GB * 1024**3`. -/
def neededSpace (required_bytes : Nat) : Nat :=
  required_bytes + MINIMUM_FREE_SPACE_GB * 1024 * 1024 * 1024

/-- The eviction candidates in the order the deletion loop visits them. -/
def sortedCandidates (st : St) : List (Nat × String) :=
  sortPairs (evictionCandidates st)

/-- The files `delete_old_files_until_space` deletes, in deletion order
(empty unless the free-space check fails). -/
def deletedFiles (st : St) (required_bytes : Nat) : List String :=
  (evictLoop st (neededSpace required_bytes - st.free) 0 (sortedCandidates st)).2

/-- The state after the deletion loop of `delete_old_files_until_space`. -/
def evictResultSt (st : St) (required_bytes : Nat) : St :=
  (evictLoop st (neededSpace required_bytes - st.free) 0 (sortedCandidates st)).1

/-- Total byte size, as recorded on disk in `st`, of a list of paths. -/
def sumSizes (st : St) (ps : List String) : Nat :=
  (ps.map (getsize st)).sum

/-- The cache-consistency invariant: every repository id with an entry in
`_repo_files_cache` also has an entry in `_repo_file_sizes_cache`. -/
def Inv (st : St) : Prop :=
  ∀ r ∈ keysA st.repo_files_cache, (lookupA st.repo_file_sizes_cache r).isSome = true

instance (st : St) : Decidable (Inv st) := by
  unfold Inv; infer_instance

/-- The local path a candidate resolves to, if any: the join of the cache
root with the first catalog file whose basename equals the candidate. -/
def resolvedPath (repo_files : List String) (c : String) : Option String :=
  ((repo_files.filter (fun f => basename f = c)).head?).map (joinPath local_base_dir)

/-- An event is not an external download attempt. -/
def notFetchEv (e : Ev) : Prop :=
  ∀ r f, e ≠ Ev.fetch r f

/- Concrete fixtures used by witness and counterexample theorems. -/

/-- A repository serving `a.bin` and `b.bin`, one byte each; downloads
always succeed. -/
def oracleTwoSmall : Oracle :=
  { remote := fun r => if r = "org/model" then some [("a.bin", 1), ("b.bin", 1)] else none,
    fetchOk := fun _ _ => true }

/-- Same repository, but the download of `b.bin` fails. -/
def oracleFailB : Oracle :=
  { remote := fun r => if r = "org/model" then some [("a.bin", 1), ("b.bin", 1)] else none,
    fetchOk := fun _ f => if f = "b.bin" then false else true }

/-- A remote that rejects every metadata listing. -/
def oracleDown : Oracle :=
  { remote := fun _ => none, fetchOk := fun _ _ => true }

/-- Empty caches and disk, two free bytes: far below the 10 GiB floor. -/
def stTight : St :=
  { file_access_times := [], repo_files_cache := [], repo_file_sizes_cache := [],
    disk := [], free := 2, clock := 0 }

/-- Empty caches and disk, floor plus five bytes free. -/
def stRoomy : St :=
  { file_access_times := [], repo_files_cache := [], repo_file_sizes_cache := [],
    disk := [], free := 10737418245, clock := 0 }

/-- `a.bin` already cached and indexed, ample free space. -/
def stHasA : St :=
  { file_access_times := [("/ComfyUI/models/a.bin", 0)],
    repo_files_cache := [], repo_file_sizes_cache := [],
    disk := [("/ComfyUI/models/a.bin", 1)], free := 10737418245, clock := 1 }

/-- Both caches populated for `org/model`, nothing on disk, ample space. -/
def stCached : St :=
  { file_access_times := [],
    repo_files_cache := [("org/model", ["a.bin", "b.bin"])],
    repo_file_sizes_cache := [("org/model", [("a.bin", 1), ("b.bin", 1)])],
    disk := [], free := 10737418245, clock := 0 }

/-- Two indexed cached files, two free bytes: far below the floor. -/
def stTightAB : St :=
  { file_access_times := [("/ComfyUI/models/b.bin", 5), ("/ComfyUI/models/a.bin", 3)],
    repo_files_cache := [], repo_file_sizes_cache := [],
    disk := [("/ComfyUI/models/a.bin", 1), ("/ComfyUI/models/b.bin", 1)],
    free := 2, clock := 6 }

/-- `stHasA` after the repository listing has been cached. -/
def stG10 : St :=
  { file_access_times := [("/ComfyUI/models/a.bin", 0)],
    repo_files_cache := [("org/model", ["a.bin", "b.bin"])],
    repo_file_sizes_cache := [("org/model", [("a.bin", 1), ("b.bin", 1)])],
    disk := [("/ComfyUI/models/a.bin", 1)], free := 10737418245, clock := 1 }

/-- `stG10` after the cached `a.bin` has been served and touched. -/
def stP10 : St :=
  { file_access_times := [("/ComfyUI/models/a.bin", 1)],
    repo_files_cache := [("org/model", ["a.bin", "b.bin"])],
    repo_file_sizes_cache := [("org/model", [("a.bin", 1), ("b.bin", 1)])],
    disk := [("/ComfyUI/models/a.bin", 1)], free := 10737418245, clock := 2 }

/-- The state after `download_models` on `stRoomy` with both files
downloaded: everything cached, indexed and still on disk. -/
def stRoomy1 : St :=
  { file_access_times := [("/ComfyUI/models/a.bin", 0), ("/ComfyUI/models/b.bin", 1)],
    repo_files_cache := [("org/model", ["a.bin", "b.bin"])],
    repo_file_sizes_cache := [("org/model", [("a.bin", 1), ("b.bin", 1)])],
    disk := [("/ComfyUI/models/a.bin", 1), ("/ComfyUI/models/b.bin", 1)],
    free := 10737418243, clock := 2 }

/-- `stTight` after the repository listing has been cached. -/
def stT_G : St :=
  { file_access_times := [],
    repo_files_cache := [("org/model", ["a.bin", "b.bin"])],
    repo_file_sizes_cache := [("org/model", [("a.bin", 1), ("b.bin", 1)])],
    disk := [], free := 2, clock := 0 }

/-- `stT_G` after `a.bin` has been downloaded and touched. -/
def stT_A : St :=
  { file_access_times := [("/ComfyUI/models/a.bin", 0)],
    repo_files_cache := [("org/model", ["a.bin", "b.bin"])],
    repo_file_sizes_cache := [("org/model", [("a.bin", 1), ("b.bin", 1)])],
    disk := [("/ComfyUI/models/a.bin", 1)], free := 1, clock := 1 }

/-- `stT_A` after the eviction of `a.bin` and download of `b.bin`. -/
def stT_B : St :=
  { file_access_times := [("/ComfyUI/models/b.bin", 1)],
    repo_files_cache := [("org/model", ["a.bin", "b.bin"])],
    repo_file_sizes_cache := [("org/model", [("a.bin", 1), ("b.bin", 1)])],
    disk := [("/ComfyUI/models/b.bin", 1)], free := 1, clock := 2 }

/-- `stT_B` after the second call re-downloads `a.bin` (evicting `b.bin`). -/
def stT_C : St :=
  { file_access_times := [("/ComfyUI/models/a.bin", 2)],
    repo_files_cache := [("org/model", ["a.bin", "b.bin"])],
    repo_file_sizes_cache := [("org/model", [("a.bin", 1), ("b.bin", 1)])],
    disk := [("/ComfyUI/models/a.bin", 1)], free := 1, clock := 3 }

/-- `stT_C` after the second call re-downloads `b.bin` (evicting `a.bin`). -/
def stT_D : St :=
  { file_access_times := [("/ComfyUI/models/b.bin", 3)],
    repo_files_cache := [("org/model", ["a.bin", "b.bin"])],
    repo_file_sizes_cache := [("org/model", [("a.bin", 1), ("b.bin", 1)])],
    disk := [("/ComfyUI/models/b.bin", 1)], free := 1, clock := 4 }

/-- `stRoomy` after the repository listing has been cached. -/
def stR_G : St :=
  { file_access_times := [],
    repo_files_cache := [("org/model", ["a.bin", "b.bin"])],
    repo_file_sizes_cache := [("org/model", [("a.bin", 1), ("b.bin", 1)])],
    disk := [], free := 10737418245, clock := 0 }

/-- `stR_G` after `a.bin` has been downloaded and touched. -/
def stR_A : St :=
  { file_access_times := [("/ComfyUI/models/a.bin", 0)],
    repo_files_cache := [("org/model", ["a.bin", "b.bin"])],
    repo_file_sizes_cache := [("org/model", [("a.bin", 1), ("b.bin", 1)])],
    disk := [("/ComfyUI/models/a.bin", 1)], free := 10737418244, clock := 1 }

/-- An input object whose string leaves are `a.bin` and `b.bin`. -/
def objTwo : Value :=
  .arr [.str "a.bin", .str "b.bin"]

/-- An input object with no string leaf that survives trimming. -/
def objNoStrings : Value :=
  .dict [("k", .num 3), ("s", .str "  "), ("l", .arr [.null, .boolV true])]

/- Association-list (Python dict) lemmas. -/

theorem lookupA_cons {α : Type} (p : String × α) (l : List (String × α)) (k : String) :
    lookupA (p :: l) k = if p.1 = k then some p.2 else lookupA l k := by
  by_cases h : p.1 = k <;> simp [lookupA, List.find?_cons, h]

theorem lookupA_updateA_self {α : Type} (l : List (String × α)) (k : String) (v : α) :
    lookupA (updateA l k v) k = some v := by
  induction l with
  | nil => simp [updateA, lookupA_cons, lookupA]
  | cons p rest ih =>
    by_cases h : p.1 = k
    · simp [updateA, h, lookupA_cons]
    · simp [updateA, h, lookupA_cons, ih]

theorem lookupA_updateA_ne {α : Type} (l : List (String × α)) (k q : String) (v : α)
    (h : q ≠ k) : lookupA (updateA l k v) q = lookupA l q := by
  have hkq : ¬ k = q := fun h' => h h'.symm
  induction l with
  | nil => simp [updateA, lookupA_cons, lookupA, hkq]
  | cons p rest ih =>
    by_cases hp : p.1 = k
    · rw [updateA, if_pos hp, lookupA_cons, lookupA_cons, hp,
        if_neg hkq, if_neg hkq]
    · rw [updateA, if_neg hp, lookupA_cons, lookupA_cons, ih]

theorem lookupA_eraseA_ne {α : Type} (l : List (String × α)) (k q : String)
    (h : q ≠ k) : lookupA (eraseA l k) q = lookupA l q := by
  induction l with
  | nil => rfl
  | cons p rest ih =>
    simp only [eraseA, List.filter_cons] at ih ⊢
    by_cases hp : p.1 = k
    · rw [if_neg (by simp [hp]), lookupA_cons,
        if_neg (fun h' => h (h'.symm.trans hp))]
      exact ih
    · rw [if_pos (by simp [hp]), lookupA_cons, lookupA_cons, ih]

theorem lookupA_isSome_iff {α : Type} (l : List (String × α)) (k : String) :
    (lookupA l k).isSome = true ↔ k ∈ keysA l := by
  induction l with
  | nil => simp [lookupA, keysA]
  | cons p rest ih =>
    rw [lookupA_cons]
    by_cases h : p.1 = k
    · simp [h, keysA]
    · have h' : ¬ k = p.1 := fun hh => h hh.symm
      simp only [keysA, List.map_cons, List.mem_cons] at ih ⊢
      simp [if_neg h, ih, h']

theorem lookupA_isSome_of_mem {α : Type} (l : List (String × α)) (k : String) (v : α)
    (h : (k, v) ∈ l) : (lookupA l k).isSome = true := by
  rw [lookupA_isSome_iff]
  exact List.mem_map.mpr ⟨(k, v), h, rfl⟩

/- `insertUniq` (Python set insertion) lemmas. -/

theorem mem_insertUniq (l : List String) (t s : String) :
    s ∈ insertUniq l t ↔ s ∈ l ∨ s = t := by
  unfold insertUniq; split
  · rename_i h
    constructor
    · exact Or.inl
    · rintro (h' | rfl)
      · exact h'
      · exact h
  · simp [List.mem_append]

theorem nodup_insertUniq (l : List String) (t : String) (h : l.Nodup) :
    (insertUniq l t).Nodup := by
  unfold insertUniq; split
  · exact h
  · rename_i ht
    simp [List.nodup_append, h, ht]

/- Code-point order lemmas. -/

theorem charsLe_total (a b : List Char) : charsLe a b = true ∨ charsLe b a = true := by
  induction a generalizing b with
  | nil => left; rfl
  | cons x xs ih =>
    cases b with
    | nil => right; rfl
    | cons y ys =>
      by_cases h : x.toNat = y.toNat
      · have h' : y.toNat = x.toNat := h.symm
        rcases ih ys with h1 | h1
        · left; simp [charsLe, h, h1]
        · right; simp [charsLe, h', h1]
      · rcases Nat.lt_or_ge x.toNat y.toNat with hlt | hge
        · left; simp [charsLe, h, hlt]
        · have h' : ¬ y.toNat = x.toNat := by omega
          have hgt : y.toNat < x.toNat := by omega
          right; simp [charsLe, h', hgt]

theorem charsLe_trans (a b c : List Char) (h1 : charsLe a b = true)
    (h2 : charsLe b c = true) : charsLe a c = true := by
  induction a generalizing b c with
  | nil => rfl
  | cons x xs ih =>
    cases b with
    | nil => simp [charsLe] at h1
    | cons y ys =>
      cases c with
      | nil => simp [charsLe] at h2
      | cons z zs =>
        simp only [charsLe] at h1 h2 ⊢
        by_cases hxy : x.toNat = y.toNat <;> by_cases hyz : y.toNat = z.toNat
        · simp only [hxy, hyz, if_true, eq_self_iff_true] at h1 h2
          simp only [if_pos (hxy.trans hyz)]
          exact ih ys zs h1 h2
        · simp only [hxy, if_true, eq_self_iff_true] at h1
          simp only [hyz, if_false, decide_eq_true_eq, if_neg hyz] at h2
          have hne : ¬ x.toNat = z.toNat := by omega
          simp only [if_neg hne, decide_eq_true_eq]
          omega
        · simp only [if_neg hxy, decide_eq_true_eq] at h1
          simp only [hyz, if_true, eq_self_iff_true] at h2
          have hne : ¬ x.toNat = z.toNat := by omega
          simp only [if_neg hne, decide_eq_true_eq]
          omega
        · simp only [if_neg hxy, decide_eq_true_eq] at h1
          simp only [if_neg hyz, decide_eq_true_eq] at h2
          have hne : ¬ x.toNat = z.toNat := by omega
          simp only [if_neg hne, decide_eq_true_eq]
          omega

theorem pairLeB_iff (a b : Nat × String) :
    pairLeB a b = true ↔ a.1 < b.1 ∨ (a.1 = b.1 ∧ charsLe a.2.data b.2.data = true) := by
  simp [pairLeB]

theorem pairLeB_total (a b : Nat × String) : pairLeB a b = true ∨ pairLeB b a = true := by
  rcases Nat.lt_trichotomy a.1 b.1 with h | h | h
  · left; rw [pairLeB_iff]; exact Or.inl h
  · rcases charsLe_total a.2.data b.2.data with hc | hc
    · left; rw [pairLeB_iff]; exact Or.inr ⟨h, hc⟩
    · right; rw [pairLeB_iff]; exact Or.inr ⟨h.symm, hc⟩
  · right; rw [pairLeB_iff]; exact Or.inl h

theorem pairLeB_trans (a b c : Nat × String) (h1 : pairLeB a b = true)
    (h2 : pairLeB b c = true) : pairLeB a c = true := by
  rw [pairLeB_iff] at h1 h2 ⊢
  rcases h1 with h1 | ⟨e1, c1⟩ <;> rcases h2 with h2 | ⟨e2, c2⟩
  · exact Or.inl (by omega)
  · exact Or.inl (by omega)
  · exact Or.inl (by omega)
  · exact Or.inr ⟨by omega, charsLe_trans _ _ _ c1 c2⟩

/- Insertion-sort lemmas. -/

theorem mem_insertSorted (x y : Nat × String) (l : List (Nat × String)) :
    y ∈ insertSorted x l ↔ y = x ∨ y ∈ l := by
  induction l with
  | nil => simp [insertSorted]
  | cons z zs ih =>
    simp only [insertSorted]; split
    · simp only [List.mem_cons, ih]; tauto
    · simp only [List.mem_cons]
      try tauto

theorem insertSorted_perm (x : Nat × String) (l : List (Nat × String)) :
    List.Perm (insertSorted x l) (x :: l) := by
  induction l with
  | nil => exact List.Perm.refl _
  | cons z zs ih =>
    simp only [insertSorted]; split
    · exact (ih.cons z).trans (List.Perm.swap x z zs)
    · exact List.Perm.refl _

theorem sortPairs_perm_aux (l acc : List (Nat × String)) :
    List.Perm (l.foldl (fun acc x => insertSorted x acc) acc) (acc ++ l) := by
  induction l generalizing acc with
  | nil => simp
  | cons x xs ih =>
    simp only [List.foldl_cons]
    refine (ih (insertSorted x acc)).trans ?_
    refine (((insertSorted_perm x acc).append_right xs).trans ?_)
    simpa using List.perm_middle.symm

theorem sortPairs_perm (l : List (Nat × String)) : List.Perm (sortPairs l) l := by
  simpa using sortPairs_perm_aux l []

theorem insertSorted_sorted (x : Nat × String) (l : List (Nat × String))
    (h : l.Pairwise (fun a b => pairLeB a b = true)) :
    (insertSorted x l).Pairwise (fun a b => pairLeB a b = true) := by
  induction l with
  | nil => simp [insertSorted]
  | cons z zs ih =>
    rcases List.pairwise_cons.mp h with ⟨hz, hzs⟩
    simp only [insertSorted]; split
    · rename_i hle
      refine List.pairwise_cons.mpr ⟨?_, ih hzs⟩
      intro y hy
      rcases (mem_insertSorted x y zs).mp hy with rfl | hmem
      · exact hle
      · exact hz y hmem
    · rename_i hnle
      have hxz : pairLeB x z = true := by
        rcases pairLeB_total z x with h' | h'
        · exact absurd h' hnle
        · exact h'
      refine List.pairwise_cons.mpr ⟨?_, h⟩
      intro y hy
      rcases List.mem_cons.mp hy with rfl | hmem
      · exact hxz
      · exact pairLeB_trans x z y hxz (hz y hmem)

theorem sortPairs_sorted_aux (l acc : List (Nat × String))
    (hacc : acc.Pairwise (fun a b => pairLeB a b = true)) :
    (l.foldl (fun acc x => insertSorted x acc) acc).Pairwise
      (fun a b => pairLeB a b = true) := by
  induction l generalizing acc with
  | nil => exact hacc
  | cons x xs ih =>
    simp only [List.foldl_cons]
    exact ih _ (insertSorted_sorted x acc hacc)

theorem sortPairs_sorted (l : List (Nat × String)) :
    (sortPairs l).Pairwise (fun a b => pairLeB a b = true) := by
  exact sortPairs_sorted_aux l [] (by simp)

/- Deletion-loop lemmas. -/

theorem evictLoop_cons (st : St) (stf freed t : Nat) (p : String)
    (rest : List (Nat × String)) :
    evictLoop st stf freed ((t, p) :: rest) =
      if freed ≥ stf then (st, [])
      else
        ((evictLoop
            { st with
                disk := eraseA st.disk p,
                file_access_times := eraseA st.file_access_times p,
                free := st.free + getsize st p } stf (freed + getsize st p) rest).1,
         p :: (evictLoop
            { st with
                disk := eraseA st.disk p,
                file_access_times := eraseA st.file_access_times p,
                free := st.free + getsize st p } stf (freed + getsize st p) rest).2) := by
  rfl

theorem evictLoop_deleted_take (l : List (Nat × String)) :
    ∀ (st : St) (stf freed : Nat),
      ∃ k, (evictLoop st stf freed l).2 = (l.map Prod.snd).take k := by
  induction l with
  | nil => intro st stf freed; exact ⟨0, rfl⟩
  | cons tp rest ih =>
    intro st stf freed
    obtain ⟨t, p⟩ := tp
    rw [evictLoop_cons]
    by_cases h : freed ≥ stf
    · refine ⟨0, ?_⟩
      rw [if_pos h]
      rfl
    · rw [if_neg h]
      obtain ⟨k, hk⟩ := ih
        { st with
            disk := eraseA st.disk p,
            file_access_times := eraseA st.file_access_times p,
            free := st.free + getsize st p } stf (freed + getsize st p)
      exact ⟨k + 1, by simp [hk]⟩

theorem evictLoop_deleted_mem (l : List (Nat × String)) (st : St) (stf freed : Nat)
    (p : String) (hp : p ∈ (evictLoop st stf freed l).2) : p ∈ l.map Prod.snd := by
  obtain ⟨k, hk⟩ := evictLoop_deleted_take l st stf freed
  rw [hk] at hp
  exact List.take_subset k _ hp

theorem evictLoop_frame (l : List (Nat × String)) :
    ∀ (st : St) (stf freed : Nat),
      (evictLoop st stf freed l).1.repo_files_cache = st.repo_files_cache ∧
      (evictLoop st stf freed l).1.repo_file_sizes_cache = st.repo_file_sizes_cache ∧
      (evictLoop st stf freed l).1.clock = st.clock ∧
      ∀ q, q ∉ (evictLoop st stf freed l).2 →
        lookupA (evictLoop st stf freed l).1.disk q = lookupA st.disk q ∧
        lookupA (evictLoop st stf freed l).1.file_access_times q =
          lookupA st.file_access_times q := by
  induction l with
  | nil => intro st stf freed; exact ⟨rfl, rfl, rfl, fun q _ => ⟨rfl, rfl⟩⟩
  | cons tp rest ih =>
    intro st stf freed
    obtain ⟨t, p⟩ := tp
    rw [evictLoop_cons]
    by_cases h : freed ≥ stf
    · rw [if_pos h]; exact ⟨rfl, rfl, rfl, fun q _ => ⟨rfl, rfl⟩⟩
    · rw [if_neg h]
      obtain ⟨hc1, hc2, hc3, hframe⟩ := ih
        { st with
            disk := eraseA st.disk p,
            file_access_times := eraseA st.file_access_times p,
            free := st.free + getsize st p } stf (freed + getsize st p)
      refine ⟨hc1, hc2, hc3, ?_⟩
      intro q hq
      simp only [List.mem_cons, not_or] at hq
      obtain ⟨hqp, hqd⟩ := hq
      obtain ⟨hd, hf⟩ := hframe q hqd
      constructor
      · rw [hd]; exact lookupA_eraseA_ne _ _ _ hqp
      · rw [hf]; exact lookupA_eraseA_ne _ _ _ hqp

theorem sumSizes_cons (st : St) (p : String) (ps : List String) :
    sumSizes st (p :: ps) = getsize st p + sumSizes st ps := by
  simp [sumSizes]

theorem sumSizes_congr (st st' : St) (ps : List String)
    (h : ∀ p ∈ ps, getsize st' p = getsize st p) : sumSizes st' ps = sumSizes st ps := by
  unfold sumSizes
  rw [List.map_congr_left h]

theorem evictLoop_stop (l : List (Nat × String)) :
    ∀ (st : St) (stf freed : Nat), (l.map Prod.snd).Nodup →
      (∀ i < (evictLoop st stf freed l).2.length,
        freed + sumSizes st ((evictLoop st stf freed l).2.take i) < stf) ∧
      ((evictLoop st stf freed l).2.length < l.length →
        stf ≤ freed + sumSizes st (evictLoop st stf freed l).2) := by
  induction l with
  | nil =>
    intro st stf freed _
    exact ⟨fun i hi => absurd hi (by simp [evictLoop]), fun h => absurd h (by simp [evictLoop])⟩
  | cons tp rest ih =>
    intro st stf freed hnd
    obtain ⟨t, p⟩ := tp
    simp only [List.map_cons, List.nodup_cons] at hnd
    obtain ⟨hp, hnd'⟩ := hnd
    rw [evictLoop_cons]
    by_cases h : freed ≥ stf
    · rw [if_pos h]
      refine ⟨fun i hi => absurd hi (by simp), fun _ => ?_⟩
      simpa [sumSizes] using h
    · rw [if_neg h]
      set st' : St :=
        { st with
            disk := eraseA st.disk p,
            file_access_times := eraseA st.file_access_times p,
            free := st.free + getsize st p } with hst'
      have hsize : ∀ q ∈ rest.map Prod.snd, getsize st' q = getsize st q := by
        intro q hq
        have hqp : q ≠ p := fun hqp => hp (hqp ▸ hq)
        unfold getsize
        rw [hst']
        simp only
        rw [lookupA_eraseA_ne _ _ _ hqp]
      obtain ⟨ih1, ih2⟩ := ih st' stf (freed + getsize st p) hnd'
      have hsub : ∀ q ∈ (evictLoop st' stf (freed + getsize st p) rest).2,
          q ∈ rest.map Prod.snd := fun q hq => evictLoop_deleted_mem rest st' _ _ q hq
      have hsum : ∀ ps : List String, (∀ q ∈ ps, q ∈ rest.map Prod.snd) →
          sumSizes st' ps = sumSizes st ps := by
        intro ps hps
        exact sumSizes_congr st st' ps (fun q hq => hsize q (hps q hq))
      constructor
      · intro i hi
        simp only [List.length_cons] at hi
        match i with
        | 0 =>
          simpa [sumSizes] using lt_of_not_ge h
        | Nat.succ j =>
          have hj : j < (evictLoop st' stf (freed + getsize st p) rest).2.length := by
            simpa using Nat.lt_of_succ_lt_succ hi
          have := ih1 j hj
          rw [hsum _ (fun q hq => hsub q (List.take_subset j _ hq))] at this
          simp only [List.take_succ_cons, sumSizes_cons]
          omega
      · intro hlen
        simp only [List.length_cons] at hlen
        have hlen' : (evictLoop st' stf (freed + getsize st p) rest).2.length < rest.length :=
          Nat.lt_of_succ_lt_succ hlen
        have := ih2 hlen'
        rw [hsum _ hsub] at this
        simp only [sumSizes_cons]
        omega

theorem mem_evictionCandidates (st : St) (t : Nat) (p : String)
    (h : (t, p) ∈ evictionCandidates st) :
    (p, t) ∈ st.file_access_times ∧ fileExists st p = true ∧
      startsWithB p local_base_dir = true := by
  unfold evictionCandidates at h
  obtain ⟨pt, hmem, heq⟩ := List.mem_map.mp h
  obtain ⟨hmem', hfilt⟩ := List.mem_filter.mp hmem
  have h1 : pt.1 = p := congrArg Prod.snd heq
  have h2 : pt.2 = t := congrArg Prod.fst heq
  rw [Bool.and_eq_true] at hfilt
  refine ⟨?_, h1 ▸ hfilt.1, h1 ▸ hfilt.2⟩
  have : pt = (p, t) := Prod.ext h1 h2
  exact this ▸ hmem'

theorem nodup_sortedCandidates_paths (st : St)
    (h : (keysA st.file_access_times).Nodup) :
    ((sortedCandidates st).map Prod.snd).Nodup := by
  have hperm : List.Perm ((sortedCandidates st).map Prod.snd)
      ((evictionCandidates st).map Prod.snd) :=
    (sortPairs_perm (evictionCandidates st)).map Prod.snd
  refine hperm.nodup_iff.mpr ?_
  have heq : (evictionCandidates st).map Prod.snd =
      (st.file_access_times.filter
        (fun pt => fileExists st pt.1 && startsWithB pt.1 local_base_dir)).map Prod.fst := by
    unfold evictionCandidates
    rw [List.map_map]
    rfl
  rw [heq]
  exact List.Nodup.sublist
    (List.Sublist.map Prod.fst (List.filter_sublist st.file_access_times)) h

/-- C7: when current free bytes are at least `required_bytes` plus the
minimum-free floor (a fixed constant, 10 GiB = 10·1024³ bytes),
`delete_old_files_until_space` deletes nothing and leaves the whole state
— in particular the access-time index — unchanged. -/
theorem delete_old_files_until_space_noop (st : St) (target_dir : String)
    (required_bytes : Nat) (h : neededSpace required_bytes ≤ st.free) :
    delete_old_files_until_space st target_dir required_bytes =
      (st, [Ev.ensure target_dir required_bytes]) ∧
    neededSpace required_bytes = required_bytes + 10 * 1024 * 1024 * 1024 ∧
    MINIMUM_FREE_SPACE_GB * 1024 * 1024 * 1024 = 10737418240 := by
  refine ⟨?_, rfl, by norm_num [MINIMUM_FREE_SPACE_GB]⟩
  unfold delete_old_files_until_space
  dsimp only
  rw [if_pos
    (show st.free ≥ required_bytes + MINIMUM_FREE_SPACE_GB * 1024 * 1024 * 1024 from h)]

/-- Witness for C7 at a concrete state with floor + 5 free bytes. -/
theorem delete_old_files_until_space_noop_witness :
    delete_old_files_until_space stRoomy "/ComfyUI/models" 5 =
      (stRoomy, [Ev.ensure "/ComfyUI/models" 5]) ∧
    neededSpace 5 = 5 + 10 * 1024 * 1024 * 1024 ∧
    MINIMUM_FREE_SPACE_GB * 1024 * 1024 * 1024 = 10737418240 :=
  delete_old_files_until_space_noop stRoomy "/ComfyUI/models" 5 (by decide)

/-- C1: when free space is below `required_bytes` plus the floor, the
files deleted by `delete_old_files_until_space` are exactly a prefix of
the eviction candidates (entries of the access-time index that exist on
disk under the cache root) sorted ascending by recorded access time (ties
by path), deletion stopping as soon as the accumulated freed bytes reach
the deficit or the candidates are exhausted; every deleted file lies
under the cache root and no other file is removed from disk. -/
theorem delete_old_files_until_space_evicts_lru (st : St) (target_dir : String)
    (required_bytes : Nat)
    (hfree : st.free < neededSpace required_bytes)
    (hkeys : (keysA st.file_access_times).Nodup) :
    delete_old_files_until_space st target_dir required_bytes =
      (evictResultSt st required_bytes,
       Ev.ensure target_dir required_bytes ::
         (deletedFiles st required_bytes).map Ev.evict) ∧
    List.Perm (sortedCandidates st) (evictionCandidates st) ∧
    (sortedCandidates st).Pairwise (fun a b => a.1 ≤ b.1) ∧
    (∃ k, deletedFiles st required_bytes =
      ((sortedCandidates st).map Prod.snd).take k) ∧
    (∀ i < (deletedFiles st required_bytes).length,
      sumSizes st ((deletedFiles st required_bytes).take i) <
        neededSpace required_bytes - st.free) ∧
    ((deletedFiles st required_bytes).length < (sortedCandidates st).length →
      neededSpace required_bytes - st.free ≤
        sumSizes st (deletedFiles st required_bytes)) ∧
    (∀ p ∈ deletedFiles st required_bytes,
      startsWithB p local_base_dir = true ∧ fileExists st p = true ∧
        (lookupA st.file_access_times p).isSome = true) ∧
    (∀ q, q ∉ deletedFiles st required_bytes →
      lookupA (evictResultSt st required_bytes).disk q = lookupA st.disk q) := by
  have hn : ¬ st.free ≥ required_bytes + MINIMUM_FREE_SPACE_GB * 1024 * 1024 * 1024 := by
    unfold neededSpace at hfree; omega
  have hnd := nodup_sortedCandidates_paths st hkeys
  obtain ⟨hstop1, hstop2⟩ :=
    evictLoop_stop (sortedCandidates st) st (neededSpace required_bytes - st.free) 0 hnd
  refine ⟨?_, sortPairs_perm _, ?_, ?_, ?_, ?_, ?_, ?_⟩
  · unfold delete_old_files_until_space
    dsimp only
    rw [if_neg hn]
    rfl
  · refine (sortPairs_sorted _).imp ?_
    intro a b hab
    rcases (pairLeB_iff a b).mp hab with h | ⟨h, _⟩
    · omega
    · omega
  · exact evictLoop_deleted_take _ st _ 0
  · intro i hi
    have := hstop1 i hi
    simpa [deletedFiles] using this
  · intro hlen
    have := hstop2 hlen
    simpa [deletedFiles] using this
  · intro p hp
    have hmem : p ∈ (sortedCandidates st).map Prod.snd :=
      evictLoop_deleted_mem _ st _ 0 p hp
    obtain ⟨a, ha, hap⟩ := List.mem_map.mp hmem
    have ha' : a ∈ evictionCandidates st := (sortPairs_perm _).mem_iff.mp ha
    have hpair : (a.1, p) ∈ evictionCandidates st := by
      have : (a.1, a.2) = a := rfl
      rw [← hap]
      simpa [this] using ha'
    obtain ⟨hfat, hex, hsw⟩ := mem_evictionCandidates st a.1 p hpair
    exact ⟨hsw, hex, lookupA_isSome_of_mem _ _ _ hfat⟩
  · intro q hq
    exact ((evictLoop_frame _ st _ 0).2.2.2 q hq).1

/-- Witness for C1 at a concrete two-candidate state two bytes shy of the
floor: the deletion loop runs and the conclusion evaluates. -/
theorem delete_old_files_until_space_evicts_lru_witness :
    delete_old_files_until_space stTightAB "/ComfyUI/models" 1 =
      (evictResultSt stTightAB 1,
       Ev.ensure "/ComfyUI/models" 1 :: (deletedFiles stTightAB 1).map Ev.evict) ∧
    List.Perm (sortedCandidates stTightAB) (evictionCandidates stTightAB) ∧
    (sortedCandidates stTightAB).Pairwise (fun a b => a.1 ≤ b.1) ∧
    (∃ k, deletedFiles stTightAB 1 =
      ((sortedCandidates stTightAB).map Prod.snd).take k) ∧
    (∀ i < (deletedFiles stTightAB 1).length,
      sumSizes stTightAB ((deletedFiles stTightAB 1).take i) <
        neededSpace 1 - stTightAB.free) ∧
    ((deletedFiles stTightAB 1).length < (sortedCandidates stTightAB).length →
      neededSpace 1 - stTightAB.free ≤ sumSizes stTightAB (deletedFiles stTightAB 1)) ∧
    (∀ p ∈ deletedFiles stTightAB 1,
      startsWithB p local_base_dir = true ∧ fileExists stTightAB p = true ∧
        (lookupA stTightAB.file_access_times p).isSome = true) ∧
    (∀ q, q ∉ deletedFiles stTightAB 1 →
      lookupA (evictResultSt stTightAB 1).disk q = lookupA stTightAB.disk q) :=
  delete_old_files_until_space_evicts_lru stTightAB "/ComfyUI/models" 1
    (by decide) (by decide)

/- String-mining lemmas. -/

theorem mem_find_all_strings (v : Value) (found : List String) :
    ∀ s, s ∈ find_all_strings v found ↔
      s ∈ found ∨ (isStringLeaf s v = true ∧ strip_nonempty s = true) := by
  induction v, found using find_all_strings.induct with
  | case1 t found ht =>
    intro s
    simp only [find_all_strings, if_pos ht, mem_insertUniq, isStringLeaf,
      decide_eq_true_eq]
    constructor
    · rintro (h | rfl)
      · exact Or.inl h
      · exact Or.inr ⟨rfl, ht⟩
    · rintro (h | ⟨rfl, _⟩)
      · exact Or.inl h
      · exact Or.inr rfl
  | case2 t found ht =>
    intro s
    simp only [find_all_strings, if_neg ht, isStringLeaf, decide_eq_true_eq]
    constructor
    · exact Or.inl
    · rintro (h | ⟨rfl, hs⟩)
      · exact h
      · exact absurd hs ht
  | case3 n found => intro s; simp [find_all_strings, isStringLeaf]
  | case4 b found => intro s; simp [find_all_strings, isStringLeaf]
  | case5 found => intro s; simp [find_all_strings, isStringLeaf]
  | case6 found => intro s; simp [find_all_strings, isStringLeaf]
  | case7 k v rest found ih1 ih2 =>
    intro s
    have hstep : find_all_strings (.dict ((k, v) :: rest)) found =
        find_all_strings (.dict rest) (find_all_strings v found) := by
      simp only [find_all_strings]
    rw [hstep, ih2 s, ih1 s]
    simp only [isStringLeaf, Bool.or_eq_true]
    tauto
  | case8 found => intro s; simp [find_all_strings, isStringLeaf]
  | case9 v rest found ih1 ih2 =>
    intro s
    have hstep : find_all_strings (.arr (v :: rest)) found =
        find_all_strings (.arr rest) (find_all_strings v found) := by
      simp only [find_all_strings]
    rw [hstep, ih2 s, ih1 s]
    simp only [isStringLeaf, Bool.or_eq_true]
    tauto

theorem nodup_find_all_strings (v : Value) (found : List String) :
    found.Nodup → (find_all_strings v found).Nodup := by
  induction v, found using find_all_strings.induct with
  | case1 t found ht =>
    intro h
    simp only [find_all_strings, if_pos ht]
    exact nodup_insertUniq _ _ h
  | case2 t found ht => intro h; simpa [find_all_strings, if_neg ht] using h
  | case3 n found => intro h; simpa [find_all_strings] using h
  | case4 b found => intro h; simpa [find_all_strings] using h
  | case5 found => intro h; simpa [find_all_strings] using h
  | case6 found => intro h; simpa [find_all_strings] using h
  | case7 k v rest found ih1 ih2 =>
    intro h
    have hstep : find_all_strings (.dict ((k, v) :: rest)) found =
        find_all_strings (.dict rest) (find_all_strings v found) := by
      simp only [find_all_strings]
    rw [hstep]
    exact ih2 (ih1 h)
  | case8 found => intro h; simpa [find_all_strings] using h
  | case9 v rest found ih1 ih2 =>
    intro h
    have hstep : find_all_strings (.arr (v :: rest)) found =
        find_all_strings (.arr rest) (find_all_strings v found) := by
      simp only [find_all_strings]
    rw [hstep]
    exact ih2 (ih1 h)

/-- C6: the string miner returns a duplicate-free collection containing a
string `s` if and only if `s` occurs as a string leaf of the input
(descending through mapping values, ignoring keys, and sequence
elements) and `s` is non-empty after trimming surrounding whitespace;
the original untrimmed string is what is collected, and non-string
non-container leaves contribute nothing. -/
theorem find_all_strings_spec (v : Value) :
    (find_all_strings v []).Nodup ∧
    ∀ s, s ∈ find_all_strings v [] ↔
      (isStringLeaf s v = true ∧ strip_nonempty s = true) := by
  refine ⟨nodup_find_all_strings v [] (by simp), ?_⟩
  intro s
  rw [mem_find_all_strings]
  simp

/-- Witness for C6 at a concrete nested object. -/
theorem find_all_strings_spec_witness :
    (find_all_strings objNoStrings []).Nodup ∧
    ∀ s, s ∈ find_all_strings objNoStrings [] ↔
      (isStringLeaf s objNoStrings = true ∧ strip_nonempty s = true) :=
  find_all_strings_spec objNoStrings

/-- C8: on an input with no string leaf that survives whitespace
trimming, `download_models` returns an empty sequence, performs no
remote metadata or download calls (no events at all), and leaves the
entire state — caches and filesystem — unchanged. -/
theorem download_models_no_string_leaves (o : Oracle) (st : St) (obj : Value)
    (repo_id : String)
    (h : ∀ s, isStringLeaf s obj = true → strip_nonempty s = false) :
    download_models o st obj repo_id = (st, [], Except.ok []) := by
  have hempty : find_all_strings obj [] = [] := by
    rw [List.eq_nil_iff_forall_not_mem]
    intro s hs
    rw [mem_find_all_strings] at hs
    rcases hs with hs | ⟨h1, h2⟩
    · simp at hs
    · rw [h s h1] at h2
      exact Bool.false_ne_true h2
  simp [download_models, hempty]

/-- Witness for C8 at a concrete object with only blank or non-string
leaves. -/
theorem download_models_no_string_leaves_witness :
    download_models oracleTwoSmall stTight objNoStrings "org/model" =
      (stTight, [], Except.ok []) :=
  download_models_no_string_leaves oracleTwoSmall stTight objNoStrings "org/model"
    (by
      intro s hs
      simp [objNoStrings, isStringLeaf] at hs
      subst hs
      decide)

/- Per-candidate loop-body lemmas. -/

theorem delete_old_shape (st : St) (target_dir : String) (required_bytes : Nat) :
    ∃ (st2 : St) (d : List String),
      delete_old_files_until_space st target_dir required_bytes =
        (st2, Ev.ensure target_dir required_bytes :: List.map Ev.evict d) := by
  unfold delete_old_files_until_space
  dsimp only
  split
  · exact ⟨st, [], rfl⟩
  · exact ⟨_, _, rfl⟩

/-- C4: a candidate with zero basename matches is excluded from the
results, with a warning exactly when it ends in `.safetensors`; a
candidate with several matches raises a warning and deterministically
selects the first match in catalog order, the rest of the iteration
depending only on that first match. -/
theorem processCandidate_match_policy (o : Oracle) (repo_files : List String)
    (st : St) (repo_id c : String) :
    (repo_files.filter (fun f => basename f = c) = [] →
      processCandidate o repo_files st repo_id c =
        (st, if endsWithB c ".safetensors" then [Ev.warnNoMatch c] else [],
         Except.ok none)) ∧
    (∀ f g fs, repo_files.filter (fun f => basename f = c) = f :: g :: fs →
      processCandidate o repo_files st repo_id c =
        ((handleMatch o st repo_id f).1,
         Ev.warnMulti c :: (handleMatch o st repo_id f).2.1,
         (handleMatch o st repo_id f).2.2)) := by
  constructor
  · intro hz
    unfold processCandidate
    dsimp only
    rw [hz]
    by_cases he : endsWithB c ".safetensors" <;> simp [he]
  · intro f g fs hm
    unfold processCandidate
    dsimp only
    rw [hm]
    rcases hh : handleMatch o st repo_id f with ⟨st', evs, r⟩
    simp [hh]

/-- Witness for C4: against catalog `[x/a.bin, y/a.bin]`, the candidate
`nope.safetensors` is skipped with a warning and `a.bin` matches both
entries, warning and selecting `x/a.bin`. -/
theorem processCandidate_match_policy_witness :
    processCandidate oracleTwoSmall ["x/a.bin", "y/a.bin"] stTight "org/model"
        "nope.safetensors" =
      (stTight, [Ev.warnNoMatch "nope.safetensors"], Except.ok none) ∧
    processCandidate oracleTwoSmall ["x/a.bin", "y/a.bin"] stTight "org/model"
        "a.bin" =
      ((handleMatch oracleTwoSmall stTight "org/model" "x/a.bin").1,
       Ev.warnMulti "a.bin" ::
         (handleMatch oracleTwoSmall stTight "org/model" "x/a.bin").2.1,
       (handleMatch oracleTwoSmall stTight "org/model" "x/a.bin").2.2) := by
  constructor
  · have h := (processCandidate_match_policy oracleTwoSmall ["x/a.bin", "y/a.bin"]
      stTight "org/model" "nope.safetensors").1 (by decide)
    exact h.trans (by decide)
  · exact (processCandidate_match_policy oracleTwoSmall ["x/a.bin", "y/a.bin"]
      stTight "org/model" "a.bin").2 "x/a.bin" "y/a.bin" [] (by decide)

/-- C2: a candidate with exactly one match whose local path is absent
triggers exactly one `delete_old_files_until_space` call sized to the
file's catalogued byte size, then exactly one external download of that
file, then exactly one access-time update of the returned path, in that
order, and the returned path is appended to the results. -/
theorem processCandidate_downloads (o : Oracle) (repo_files : List String)
    (st : St) (repo_id c f : String) (sizes : List (String × Nat)) (sz : Nat)
    (hmatch : repo_files.filter (fun g => basename g = c) = [f])
    (hsizes : lookupA st.repo_file_sizes_cache repo_id = some sizes)
    (hsz : lookupA sizes f = some sz)
    (habs : fileExists st (joinPath local_base_dir f) = false)
    (hok : o.fetchOk repo_id f = true) :
    ∃ (st' : St) (evicted : List String),
      processCandidate o repo_files st repo_id c =
        (st',
         Ev.ensure local_base_dir sz :: List.map Ev.evict evicted ++
           [Ev.fetch repo_id f, Ev.touch (joinPath local_base_dir f)],
         Except.ok (some (joinPath local_base_dir f))) ∧
      ∀ rest st2 evs2 ps,
        processList o repo_files repo_id st' rest = (st2, evs2, Except.ok ps) →
        processList o repo_files repo_id st (c :: rest) =
          (st2,
           (Ev.ensure local_base_dir sz :: List.map Ev.evict evicted ++
             [Ev.fetch repo_id f, Ev.touch (joinPath local_base_dir f)]) ++ evs2,
           Except.ok (joinPath local_base_dir f :: ps)) := by
  obtain ⟨stD, d, hdel⟩ := delete_old_shape st local_base_dir sz
  have hsize : get_file_size o st repo_id f = (st, [], Except.ok sz) := by
    unfold get_file_size
    rw [hsizes]
    dsimp only
    rw [hsz]
    rfl
  have hpc : processCandidate o repo_files st repo_id c =
      ((update_access_time
          { stD with
              disk := updateA stD.disk (joinPath local_base_dir f) sz,
              free := stD.free - sz } (joinPath local_base_dir f)).1,
       Ev.ensure local_base_dir sz :: List.map Ev.evict d ++
         [Ev.fetch repo_id f, Ev.touch (joinPath local_base_dir f)],
       Except.ok (some (joinPath local_base_dir f))) := by
    simp only [processCandidate, hmatch, handleMatch, download_huggingface_model,
      hsize, hdel, hok, habs, update_access_time, Bool.false_eq_true, if_false,
      if_true, List.isEmpty_nil, List.nil_append, List.append_assoc,
      List.cons_append, List.singleton_append]
  refine ⟨_, d, hpc, ?_⟩
  intro rest st2 evs2 ps hrest
  unfold processList
  rw [hpc]
  dsimp only
  rw [hrest]

/-- Witness for C2: `b.bin` matches one catalog entry, is absent locally,
and is downloaded after one sized space check and one touch. -/
theorem processCandidate_downloads_witness :
    ∃ (st' : St) (evicted : List String),
      processCandidate oracleTwoSmall ["a.bin", "b.bin"] stCached "org/model" "b.bin" =
        (st',
         Ev.ensure local_base_dir 1 :: List.map Ev.evict evicted ++
           [Ev.fetch "org/model" "b.bin", Ev.touch (joinPath local_base_dir "b.bin")],
         Except.ok (some (joinPath local_base_dir "b.bin"))) ∧
      ∀ rest st2 evs2 ps,
        processList oracleTwoSmall ["a.bin", "b.bin"] "org/model" st' rest =
            (st2, evs2, Except.ok ps) →
        processList oracleTwoSmall ["a.bin", "b.bin"] "org/model" stCached
            ("b.bin" :: rest) =
          (st2,
           (Ev.ensure local_base_dir 1 :: List.map Ev.evict evicted ++
             [Ev.fetch "org/model" "b.bin", Ev.touch (joinPath local_base_dir "b.bin")]) ++
             evs2,
           Except.ok (joinPath local_base_dir "b.bin" :: ps)) :=
  processCandidate_downloads oracleTwoSmall ["a.bin", "b.bin"] stCached "org/model"
    "b.bin" "b.bin" [("a.bin", 1), ("b.bin", 1)] 1
    rfl rfl rfl rfl rfl

/-- The miner's output on the concrete two-string object. -/
theorem find_objTwo : find_all_strings objTwo [] = ["a.bin", "b.bin"] := by
  simp [objTwo, find_all_strings, insertUniq, strip_nonempty]

/-- C5: when the remote metadata listing fails for an uncached repository
and there is at least one candidate, the error propagates out of
`download_models` with no per-candidate processing, the state — in
particular the repository caches — is left unchanged, and a subsequent
`get_repo_files` on the resulting state attempts the remote listing
again. -/
theorem download_models_metadata_error (o : Oracle) (st : St) (obj : Value)
    (repo_id : String)
    (hne : find_all_strings obj [] ≠ [])
    (hmiss : lookupA st.repo_files_cache repo_id = none)
    (hrem : o.remote repo_id = none) :
    download_models o st obj repo_id =
      (st, [Ev.metaFetch repo_id], Except.error ()) ∧
    get_repo_files o st repo_id =
      (st, [Ev.metaFetch repo_id], Except.error ()) := by
  have hg : get_repo_files o st repo_id =
      (st, [Ev.metaFetch repo_id], Except.error ()) := by
    unfold get_repo_files
    rw [hmiss]
    dsimp only
    unfold list_huggingface_repo_files
    rw [hrem]
  refine ⟨?_, hg⟩
  unfold download_models
  dsimp only
  rw [if_neg (by simpa [List.isEmpty_iff] using hne)]
  rw [hg]

/-- Witness for C5 with an unreachable remote and a two-string input. -/
theorem download_models_metadata_error_witness :
    download_models oracleDown stTight objTwo "org/model" =
      (stTight, [Ev.metaFetch "org/model"], Except.error ()) ∧
    get_repo_files oracleDown stTight "org/model" =
      (stTight, [Ev.metaFetch "org/model"], Except.error ()) :=
  download_models_metadata_error oracleDown stTight objTwo "org/model"
    (by rw [find_objTwo]; decide) rfl rfl

/- Cache-invariant lemmas. -/

theorem mem_keysA_updateA {α : Type} (l : List (String × α)) (k q : String) (v : α) :
    q ∈ keysA (updateA l k v) ↔ q = k ∨ q ∈ keysA l := by
  induction l with
  | nil => simp [updateA, keysA]
  | cons p rest ih =>
    by_cases hp : p.1 = k
    · rw [updateA, if_pos hp]
      simp only [keysA, List.map_cons, List.mem_cons, hp]
      tauto
    · rw [updateA, if_neg hp]
      simp only [keysA, List.map_cons, List.mem_cons] at ih ⊢
      rw [ih]
      tauto

theorem list_repo_ok_sizes (o : Oracle) (st : St) (r : String) (st' : St)
    (evs : List Ev) (files : List String)
    (h : list_huggingface_repo_files o st r = (st', evs, Except.ok files)) :
    (lookupA st'.repo_file_sizes_cache r).isSome = true := by
  unfold list_huggingface_repo_files at h
  cases hrem : o.remote r with
  | none => rw [hrem] at h; exact absurd (congrArg (fun t => t.2.2) h) (by simp)
  | some sib =>
    rw [hrem] at h
    dsimp only at h
    have hst : st' = { st with
        repo_file_sizes_cache := updateA st.repo_file_sizes_cache r sib } :=
      (congrArg (fun t => t.1) h).symm
    rw [hst]
    simpa using congrArg Option.isSome (lookupA_updateA_self st.repo_file_sizes_cache r sib)

theorem inv_list_repo (o : Oracle) (st : St) (r : String) (h : Inv st) :
    Inv (list_huggingface_repo_files o st r).1 := by
  unfold list_huggingface_repo_files
  cases hrem : o.remote r with
  | none => exact h
  | some sib =>
    dsimp only
    intro q hq
    by_cases hqr : q = r
    · subst hqr
      simpa using congrArg Option.isSome
        (lookupA_updateA_self st.repo_file_sizes_cache q sib)
    · rw [lookupA_updateA_ne _ _ _ _ hqr]
      exact h q hq

theorem inv_get_repo_files (o : Oracle) (st : St) (r : String) (h : Inv st) :
    Inv (get_repo_files o st r).1 := by
  unfold get_repo_files
  cases hc : lookupA st.repo_files_cache r with
  | some files => exact h
  | none =>
    dsimp only
    rcases hl : list_huggingface_repo_files o st r with ⟨st', evs, res⟩
    have hinv' : Inv st' := by
      have := inv_list_repo o st r h
      rw [hl] at this
      exact this
    cases res with
    | error e => exact hinv'
    | ok files =>
      dsimp only
      intro q hq
      have hszc : ({ st' with
          repo_files_cache := updateA st'.repo_files_cache r files } : St).repo_file_sizes_cache =
            st'.repo_file_sizes_cache := rfl
      rw [hszc]
      rcases (mem_keysA_updateA st'.repo_files_cache r q files).mp
          (by simpa [keysA] using hq) with hqr | hq'
      · rw [hqr]
        exact list_repo_ok_sizes o st r st' evs files hl
      · exact hinv' q hq'

theorem inv_get_file_size (o : Oracle) (st : St) (r f : String) (h : Inv st) :
    Inv (get_file_size o st r f).1 := by
  unfold get_file_size
  cases hc : lookupA st.repo_file_sizes_cache r with
  | some sizes => exact h
  | none =>
    dsimp only
    rcases hg : get_repo_files o st r with ⟨st', evs, res⟩
    have hinv' : Inv st' := by
      have := inv_get_repo_files o st r h
      rw [hg] at this
      exact this
    cases res with
    | error e => exact hinv'
    | ok files =>
      dsimp only
      cases lookupA st'.repo_file_sizes_cache r with
      | some sizes => exact hinv'
      | none => exact hinv'

theorem inv_delete_old (st : St) (target_dir : String) (n : Nat) (h : Inv st) :
    Inv (delete_old_files_until_space st target_dir n).1 := by
  unfold delete_old_files_until_space
  dsimp only
  split
  · exact h
  · have hf := evictLoop_frame (sortPairs (evictionCandidates st)) st
      (n + MINIMUM_FREE_SPACE_GB * 1024 * 1024 * 1024 - st.free) 0
    intro q hq
    rw [hf.2.1]
    rw [hf.1] at hq
    exact h q hq

theorem inv_touch (st : St) (p : String) (h : Inv st) :
    Inv (update_access_time st p).1 :=
  h

theorem inv_download_model (o : Oracle) (st : St) (r f : String) (h : Inv st) :
    Inv (download_huggingface_model o st r f).1 := by
  unfold download_huggingface_model
  rcases hs : get_file_size o st r f with ⟨st1, evs1, res⟩
  have h1 : Inv st1 := by
    have := inv_get_file_size o st r f h
    rw [hs] at this
    exact this
  cases res with
  | error e => exact h1
  | ok sz =>
    dsimp only
    have h2 : Inv (delete_old_files_until_space st1 local_base_dir sz).1 :=
      inv_delete_old st1 local_base_dir sz h1
    split
    · exact h2
    · exact h2

theorem inv_handleMatch (o : Oracle) (st : St) (r f : String) (h : Inv st) :
    Inv (handleMatch o st r f).1 := by
  unfold handleMatch
  dsimp only
  split
  · exact h
  · rcases hd : download_huggingface_model o st r f with ⟨st', evs, res⟩
    have h' : Inv st' := by
      have := inv_download_model o st r f h
      rw [hd] at this
      exact this
    cases res with
    | error e => exact h'
    | ok p => exact h'

theorem inv_processCandidate (o : Oracle) (repo_files : List String) (st : St)
    (r c : String) (h : Inv st) : Inv (processCandidate o repo_files st r c).1 := by
  unfold processCandidate
  dsimp only
  rcases repo_files.filter (fun f => basename f = c) with _ | ⟨f, fs⟩
  · dsimp only
    by_cases he : endsWithB c ".safetensors" = true
    · rw [if_pos he]
      exact h
    · rw [if_neg he]
      exact h
  · dsimp only
    exact inv_handleMatch o st r f h

theorem inv_processList (o : Oracle) (repo_files : List String) (r : String)
    (cs : List String) : ∀ (st : St), Inv st → Inv (processList o repo_files r st cs).1 := by
  induction cs with
  | nil => intro st h; exact h
  | cons c rest ih =>
    intro st h
    unfold processList
    rcases hc : processCandidate o repo_files st r c with ⟨st', evs, res⟩
    have h' : Inv st' := by
      have := inv_processCandidate o repo_files st r c h
      rw [hc] at this
      exact this
    cases res with
    | error e => exact h'
    | ok op =>
      cases op with
      | none =>
        dsimp only
        rcases hr : processList o repo_files r st' rest with ⟨st'', evs', res'⟩
        have h'' : Inv st'' := by
          have := ih st' h'
          rw [hr] at this
          exact this
        exact h''
      | some p =>
        dsimp only
        rcases hr : processList o repo_files r st' rest with ⟨st'', evs', res'⟩
        have h'' : Inv st'' := by
          have := ih st' h'
          rw [hr] at this
          exact this
        cases res' with
        | error e => exact h''
        | ok ps => exact h''

theorem inv_download_models (o : Oracle) (st : St) (obj : Value) (r : String)
    (h : Inv st) : Inv (download_models o st obj r).1 := by
  unfold download_models
  dsimp only
  split
  · exact h
  · rcases hg : get_repo_files o st r with ⟨st', evs, res⟩
    have h' : Inv st' := by
      have := inv_get_repo_files o st r h
      rw [hg] at this
      exact this
    cases res with
    | error e => exact h'
    | ok repo_files =>
      dsimp only
      rcases hp : processList o repo_files r st' (find_all_strings obj []) with ⟨st'', evs', res'⟩
      have h'' : Inv st'' := by
        have := inv_processList o repo_files r (find_all_strings obj []) st' h'
        rw [hp] at this
        exact this
      exact h''

/-- C9: the invariant "every repo id cached in `_repo_files_cache` is
also cached in `_repo_file_sizes_cache`" is preserved by every operation,
and consequently `get_file_size` performs no remote metadata fetch (no
events at all) for a repo id whose file list is already cached. -/
theorem repo_cache_invariant (o : Oracle) (st : St) (r f target_dir p : String)
    (n : Nat) (obj : Value) (h : Inv st) :
    Inv (list_huggingface_repo_files o st r).1 ∧
    Inv (get_repo_files o st r).1 ∧
    Inv (get_file_size o st r f).1 ∧
    Inv (delete_old_files_until_space st target_dir n).1 ∧
    Inv (update_access_time st p).1 ∧
    Inv (download_huggingface_model o st r f).1 ∧
    Inv (download_models o st obj r).1 ∧
    ((lookupA st.repo_files_cache r).isSome = true →
      (get_file_size o st r f).2.1 = []) := by
  refine ⟨inv_list_repo o st r h, inv_get_repo_files o st r h,
    inv_get_file_size o st r f h, inv_delete_old st target_dir n h,
    inv_touch st p h, inv_download_model o st r f h,
    inv_download_models o st obj r h, ?_⟩
  intro hsome
  have hsz : (lookupA st.repo_file_sizes_cache r).isSome = true :=
    h r ((lookupA_isSome_iff st.repo_files_cache r).mp hsome)
  obtain ⟨sizes, hs⟩ := Option.isSome_iff_exists.mp hsz
  unfold get_file_size
  rw [hs]

/-- Witness for C9 at a concrete populated state. -/
theorem repo_cache_invariant_witness :
    Inv (list_huggingface_repo_files oracleTwoSmall stCached "org/model").1 ∧
    Inv (get_repo_files oracleTwoSmall stCached "org/model").1 ∧
    Inv (get_file_size oracleTwoSmall stCached "org/model" "a.bin").1 ∧
    Inv (delete_old_files_until_space stCached "/ComfyUI/models" 1).1 ∧
    Inv (update_access_time stCached "/ComfyUI/models/a.bin").1 ∧
    Inv (download_huggingface_model oracleTwoSmall stCached "org/model" "a.bin").1 ∧
    Inv (download_models oracleTwoSmall stCached objNoStrings "org/model").1 ∧
    ((lookupA stCached.repo_files_cache "org/model").isSome = true →
      (get_file_size oracleTwoSmall stCached "org/model" "a.bin").2.1 = []) :=
  repo_cache_invariant oracleTwoSmall stCached "org/model" "a.bin" "/ComfyUI/models"
    "/ComfyUI/models/a.bin" 1 objNoStrings (by decide)

/- Loop decomposition lemmas. -/

theorem processList_nil (o : Oracle) (rf : List String) (r : String) (st : St) :
    processList o rf r st [] = (st, [], Except.ok []) := rfl

theorem processList_append_error (o : Oracle) (rf : List String) (r : String)
    (xs : List String) : ∀ (st st1 : St) (e1 : List Ev) (ps : List String),
    processList o rf r st xs = (st1, e1, Except.ok ps) →
    ∀ (ys : List String) (st2 : St) (e2 : List Ev) (err : Unit),
    processList o rf r st1 ys = (st2, e2, Except.error err) →
    processList o rf r st (xs ++ ys) = (st2, e1 ++ e2, Except.error err) := by
  induction xs with
  | nil =>
    intro st st1 e1 ps h ys st2 e2 err h2
    rw [processList_nil] at h
    obtain ⟨h1, h2', _⟩ : st = st1 ∧ [] = e1 ∧ Except.ok ([] : List String) = Except.ok ps := by
      refine ⟨congrArg (fun t => t.1) h, ?_, congrArg (fun t => t.2.2) h⟩
      exact congrArg (fun t => t.2.1) h
    subst h1
    rw [← h2']
    simpa using h2
  | cons x xs ih =>
    intro st st1 e1 ps h ys st2 e2 err h2
    rw [List.cons_append]
    unfold processList at h ⊢
    rcases hc : processCandidate o rf st r x with ⟨st', evs, res⟩
    simp only [hc] at h ⊢
    cases res with
    | error e =>
      dsimp only at h
      exact absurd (congrArg (fun t => t.2.2) h) (by simp)
    | ok op =>
      cases op with
      | none =>
        dsimp only at h ⊢
        rcases hr : processList o rf r st' xs with ⟨st1', e1', res'⟩
        rw [hr] at h
        cases res' with
        | error e =>
          exact absurd (congrArg (fun t => t.2.2) h) (by simp)
        | ok ps' =>
          dsimp only at h
          have hst : st1' = st1 := congrArg (fun t => t.1) h
          have hev : evs ++ e1' = e1 := congrArg (fun t => t.2.1) h
          rw [hst] at hr
          rw [ih st' st1 e1' ps' hr ys st2 e2 err h2]
          dsimp only
          rw [← hev, List.append_assoc]
      | some p =>
        dsimp only at h ⊢
        rcases hr : processList o rf r st' xs with ⟨st1', e1', res'⟩
        rw [hr] at h
        cases res' with
        | error e =>
          exact absurd (congrArg (fun t => t.2.2) h) (by simp)
        | ok ps' =>
          dsimp only at h
          have hst : st1' = st1 := congrArg (fun t => t.1) h
          have hev : evs ++ e1' = e1 := congrArg (fun t => t.2.1) h
          rw [hst] at hr
          rw [ih st' st1 e1' ps' hr ys st2 e2 err h2]
          dsimp only
          rw [← hev, List.append_assoc]

/-- C10: when the external download of a candidate's file fails, the
exception propagates out of `download_models`: the remaining candidates
are not processed, no result sequence is returned (paths already
resolved for earlier candidates are discarded), and the state reached so
far — earlier touches and evictions included — persists. -/
theorem download_models_fetch_failure_aborts
    (o : Oracle) (st stG stP : St) (obj : Value) (repo_id : String)
    (pre rest : List String) (c : String) (repo_files : List String)
    (evsG evsP : List Ev) (ps : List String) (f : String) (fs : List String)
    (sizes : List (String × Nat))
    (hmine : find_all_strings obj [] = pre ++ c :: rest)
    (hrepo : get_repo_files o st repo_id = (stG, evsG, Except.ok repo_files))
    (hpre : processList o repo_files repo_id stG pre = (stP, evsP, Except.ok ps))
    (hmatch : repo_files.filter (fun g => basename g = c) = f :: fs)
    (hsizes : lookupA stP.repo_file_sizes_cache repo_id = some sizes)
    (habs : fileExists stP (joinPath local_base_dir f) = false)
    (hfail : o.fetchOk repo_id f = false) :
    ∃ (stF : St) (evsF : List Ev),
      processCandidate o repo_files stP repo_id c = (stF, evsF, Except.error ()) ∧
      download_models o st obj repo_id =
        (stF, evsG ++ evsP ++ evsF, Except.error ()) := by
  obtain ⟨stD, d, hdel⟩ :=
    delete_old_shape stP local_base_dir ((lookupA sizes f).getD 0)
  have hsize : get_file_size o stP repo_id f =
      (stP, [], Except.ok ((lookupA sizes f).getD 0)) := by
    unfold get_file_size
    rw [hsizes]
  have hpc : processCandidate o repo_files stP repo_id c =
      (stD,
       (if fs.isEmpty then [] else [Ev.warnMulti c]) ++
         (Ev.ensure local_base_dir ((lookupA sizes f).getD 0) ::
           List.map Ev.evict d ++ [Ev.fetch repo_id f]),
       Except.error ()) := by
    simp only [processCandidate, hmatch, handleMatch, download_huggingface_model,
      hsize, hdel, hfail, habs, Bool.false_eq_true, if_false, if_true,
      List.nil_append, List.append_assoc, List.cons_append, List.singleton_append]
  refine ⟨stD, _, hpc, ?_⟩
  have hcs : processList o repo_files repo_id stP (c :: rest) =
      (stD,
       (if fs.isEmpty then [] else [Ev.warnMulti c]) ++
         (Ev.ensure local_base_dir ((lookupA sizes f).getD 0) ::
           List.map Ev.evict d ++ [Ev.fetch repo_id f]),
       Except.error ()) := by
    unfold processList
    rw [hpc]
  have hall := processList_append_error o repo_files repo_id pre stG stP evsP ps
    hpre (c :: rest) stD _ () hcs
  unfold download_models
  dsimp only
  rw [hmine]
  rw [if_neg (by simp)]
  rw [hrepo]
  dsimp only
  rw [hall]
  rw [List.append_assoc]

/-- Witness for C10: `a.bin` is served from cache, then the download of
`b.bin` fails and the whole call aborts. -/
theorem download_models_fetch_failure_aborts_witness :
    ∃ (stF : St) (evsF : List Ev),
      processCandidate oracleFailB ["a.bin", "b.bin"] stP10 "org/model" "b.bin" =
        (stF, evsF, Except.error ()) ∧
      download_models oracleFailB stHasA objTwo "org/model" =
        (stF,
         [Ev.metaFetch "org/model"] ++ [Ev.touch "/ComfyUI/models/a.bin"] ++ evsF,
         Except.error ()) :=
  download_models_fetch_failure_aborts oracleFailB stHasA stG10 stP10 objTwo
    "org/model" ["a.bin"] [] "b.bin" ["a.bin", "b.bin"]
    [Ev.metaFetch "org/model"] [Ev.touch "/ComfyUI/models/a.bin"]
    ["/ComfyUI/models/a.bin"] "b.bin" [] [("a.bin", 1), ("b.bin", 1)]
    (by rw [find_objTwo]; rfl)
    rfl rfl rfl rfl rfl rfl

/- Result-shape lemmas for the loop body. -/

theorem download_ok_path (o : Oracle) (st : St) (r f : String) (st' : St)
    (evs : List Ev) (q : String)
    (h : download_huggingface_model o st r f = (st', evs, Except.ok q)) :
    q = joinPath local_base_dir f := by
  unfold download_huggingface_model at h
  rcases hs : get_file_size o st r f with ⟨st1, evs1, res1⟩
  simp only [hs] at h
  cases res1 with
  | error e => exact absurd (congrArg (fun t => t.2.2) h) (by simp)
  | ok sz =>
    try dsimp only at h
    by_cases hf : o.fetchOk r f = true
    · rw [if_pos hf] at h
      have h2 := congrArg (fun t => t.2.2) h
      simp only at h2
      exact (Except.ok.inj h2).symm
    · rw [if_neg hf] at h
      exact absurd (congrArg (fun t => t.2.2) h) (by simp)

theorem handleMatch_shape (o : Oracle) (st : St) (r f : String) (st' : St)
    (evs : List Ev) (res : Except Unit (Option String))
    (h : handleMatch o st r f = (st', evs, res)) :
    res = Except.error () ∨ res = Except.ok (some (joinPath local_base_dir f)) := by
  unfold handleMatch at h
  try dsimp only at h
  by_cases he : fileExists st (joinPath local_base_dir f) = true
  · rw [if_pos he] at h
    have h2 := congrArg (fun t => t.2.2) h
    simp only at h2
    exact Or.inr h2.symm
  · rw [if_neg he] at h
    rcases hd : download_huggingface_model o st r f with ⟨st2, evs2, res2⟩
    simp only [hd] at h
    cases res2 with
    | error e =>
      try dsimp only at h
      have h2 := congrArg (fun t => t.2.2) h
      simp only at h2
      cases e
      exact Or.inl h2.symm
    | ok p =>
      try dsimp only at h
      have h2 := congrArg (fun t => t.2.2) h
      simp only at h2
      right
      rw [← h2, download_ok_path o st r f st2 evs2 p hd]

theorem processCandidate_skip (o : Oracle) (rf : List String) (st : St)
    (r c : String) (hz : rf.filter (fun g => basename g = c) = []) :
    processCandidate o rf st r c =
      (st, if endsWithB c ".safetensors" then [Ev.warnNoMatch c] else [],
       Except.ok none) := by
  unfold processCandidate
  dsimp only
  rw [hz]
  by_cases he : endsWithB c ".safetensors" = true <;> simp [he]

theorem processCandidate_shape (o : Oracle) (rf : List String) (st : St)
    (r c : String) (st' : St) (evs : List Ev) (res : Except Unit (Option String))
    (h : processCandidate o rf st r c = (st', evs, res)) :
    (rf.filter (fun g => basename g = c) = [] ∧ res = Except.ok none ∧ st' = st) ∨
    (∃ f fs, rf.filter (fun g => basename g = c) = f :: fs ∧
      (res = Except.error () ∨
       res = Except.ok (some (joinPath local_base_dir f)))) := by
  unfold processCandidate at h
  try dsimp only at h
  rcases hfil : rf.filter (fun g => basename g = c) with _ | ⟨f, fs⟩
  · left
    simp only [hfil] at h
    try dsimp only at h
    refine ⟨rfl, ?_, ?_⟩
    · by_cases he : endsWithB c ".safetensors" = true
      · rw [if_pos he] at h
        exact (congrArg (fun t => t.2.2) h).symm
      · rw [if_neg he] at h
        exact (congrArg (fun t => t.2.2) h).symm
    · by_cases he : endsWithB c ".safetensors" = true
      · rw [if_pos he] at h
        exact (congrArg (fun t => t.1) h).symm
      · rw [if_neg he] at h
        exact (congrArg (fun t => t.1) h).symm
  · right
    simp only [hfil] at h
    try dsimp only at h
    rcases hh : handleMatch o st r f with ⟨st2, evs2, res2⟩
    simp only [hh] at h
    try dsimp only at h
    have hres : res2 = res := congrArg (fun t => t.2.2) h
    exact ⟨f, fs, rfl, hres ▸ handleMatch_shape o st r f st2 evs2 res2 hh⟩

theorem processList_ok_paths (o : Oracle) (rf : List String) (r : String)
    (cs : List String) : ∀ (st st' : St) (evs : List Ev) (ps : List String),
    processList o rf r st cs = (st', evs, Except.ok ps) →
    ps = cs.filterMap (resolvedPath rf) := by
  induction cs with
  | nil =>
    intro st st' evs ps h
    rw [processList_nil] at h
    have h2 := congrArg (fun t => t.2.2) h
    simp only at h2
    simpa using (Except.ok.inj h2).symm
  | cons c rest ih =>
    intro st st' evs ps h
    unfold processList at h
    rcases hc : processCandidate o rf st r c with ⟨st1, evs1, res1⟩
    simp only [hc] at h
    cases res1 with
    | error e => exact absurd (congrArg (fun t => t.2.2) h) (by simp)
    | ok op =>
      rcases processCandidate_shape o rf st r c st1 evs1 (Except.ok op) hc with
        ⟨hfil, hok, _⟩ | ⟨f, fs, hfil, hor⟩
      · have hop : op = none := Except.ok.inj hok
        subst hop
        try dsimp only at h
        rcases hr : processList o rf r st1 rest with ⟨st2, evs2, res2⟩
        simp only [hr] at h
        cases res2 with
        | error e => exact absurd (congrArg (fun t => t.2.2) h) (by simp)
        | ok ps' =>
          try dsimp only at h
          have hps : ps' = ps := Except.ok.inj (congrArg (fun t => t.2.2) h)
          have hres : resolvedPath rf c = none := by
            unfold resolvedPath
            rw [hfil]
            rfl
          rw [← hps, List.filterMap_cons, hres]
          exact ih st1 st2 evs2 ps' hr
      · rcases hor with herr | hsome
        · exact absurd herr (by simp)
        · have hop : op = some (joinPath local_base_dir f) := Except.ok.inj hsome
          subst hop
          try dsimp only at h
          rcases hr : processList o rf r st1 rest with ⟨st2, evs2, res2⟩
          simp only [hr] at h
          cases res2 with
          | error e => exact absurd (congrArg (fun t => t.2.2) h) (by simp)
          | ok ps' =>
            try dsimp only at h
            have hps : joinPath local_base_dir f :: ps' = ps :=
              Except.ok.inj (congrArg (fun t => t.2.2) h)
            have hres : resolvedPath rf c = some (joinPath local_base_dir f) := by
              unfold resolvedPath
              rw [hfil]
              rfl
            rw [← hps, List.filterMap_cons, hres]
            rw [ih st1 st2 evs2 ps' hr]

theorem get_repo_files_ok_cached (o : Oracle) (st : St) (r : String) (st' : St)
    (evs : List Ev) (F : List String)
    (h : get_repo_files o st r = (st', evs, Except.ok F)) :
    lookupA st'.repo_files_cache r = some F := by
  unfold get_repo_files at h
  cases hc : lookupA st.repo_files_cache r with
  | some files =>
    rw [hc] at h
    try dsimp only at h
    have hst : st = st' := congrArg (fun t => t.1) h
    have hfe : files = F := Except.ok.inj (congrArg (fun t => t.2.2) h)
    rw [← hst, hc, hfe]
  | none =>
    rw [hc] at h
    try dsimp only at h
    rcases hl : list_huggingface_repo_files o st r with ⟨st1, evs1, res1⟩
    rw [hl] at h
    cases res1 with
    | error e => exact absurd (congrArg (fun t => t.2.2) h) (by simp)
    | ok files =>
      try dsimp only at h
      have hst : ({ st1 with repo_files_cache := updateA st1.repo_files_cache r files } : St) = st' :=
        congrArg (fun t => t.1) h
      have hfe : files = F := Except.ok.inj (congrArg (fun t => t.2.2) h)
      rw [← hst]
      have : lookupA (updateA st1.repo_files_cache r files) r = some files :=
        lookupA_updateA_self st1.repo_files_cache r files
      rw [show ({ st1 with repo_files_cache := updateA st1.repo_files_cache r files } : St).repo_files_cache = updateA st1.repo_files_cache r files from rfl]
      rw [this, hfe]

/- Cache-frame lemmas: processing candidates never touches the two
repository caches once the repo's file list is cached. -/

theorem delete_old_caches (st : St) (target_dir : String) (n : Nat) :
    (delete_old_files_until_space st target_dir n).1.repo_files_cache =
        st.repo_files_cache ∧
    (delete_old_files_until_space st target_dir n).1.repo_file_sizes_cache =
        st.repo_file_sizes_cache := by
  unfold delete_old_files_until_space
  dsimp only
  split
  · exact ⟨rfl, rfl⟩
  · exact ⟨(evictLoop_frame _ st _ 0).1, (evictLoop_frame _ st _ 0).2.1⟩

theorem get_file_size_caches (o : Oracle) (st : St) (r f : String)
    (hrepo : (lookupA st.repo_files_cache r).isSome = true) :
    (get_file_size o st r f).1.repo_files_cache = st.repo_files_cache ∧
    (get_file_size o st r f).1.repo_file_sizes_cache = st.repo_file_sizes_cache := by
  unfold get_file_size
  cases hc : lookupA st.repo_file_sizes_cache r with
  | some sizes => exact ⟨rfl, rfl⟩
  | none =>
    dsimp only
    obtain ⟨files, hfq⟩ := Option.isSome_iff_exists.mp hrepo
    have hg : get_repo_files o st r = (st, [], Except.ok files) := by
      unfold get_repo_files
      rw [hfq]
    rw [hg]
    dsimp only
    rw [hc]
    exact ⟨rfl, rfl⟩

theorem download_caches (o : Oracle) (st : St) (r f : String)
    (hrepo : (lookupA st.repo_files_cache r).isSome = true) :
    (download_huggingface_model o st r f).1.repo_files_cache =
        st.repo_files_cache ∧
    (download_huggingface_model o st r f).1.repo_file_sizes_cache =
        st.repo_file_sizes_cache := by
  unfold download_huggingface_model
  rcases hs : get_file_size o st r f with ⟨st1, evs1, res1⟩
  have hc1 := get_file_size_caches o st r f hrepo
  rw [hs] at hc1
  cases res1 with
  | error e => exact hc1
  | ok sz =>
    dsimp only
    have hc2 := delete_old_caches st1 local_base_dir sz
    split
    · exact ⟨hc2.1.trans hc1.1, hc2.2.trans hc1.2⟩
    · exact ⟨hc2.1.trans hc1.1, hc2.2.trans hc1.2⟩

theorem handleMatch_caches (o : Oracle) (st : St) (r f : String)
    (hrepo : (lookupA st.repo_files_cache r).isSome = true) :
    (handleMatch o st r f).1.repo_files_cache = st.repo_files_cache ∧
    (handleMatch o st r f).1.repo_file_sizes_cache = st.repo_file_sizes_cache := by
  unfold handleMatch
  dsimp only
  split
  · exact ⟨rfl, rfl⟩
  · rcases hd : download_huggingface_model o st r f with ⟨st2, evs2, res2⟩
    have hcd := download_caches o st r f hrepo
    rw [hd] at hcd
    cases res2 with
    | error e => exact hcd
    | ok p => exact hcd

theorem processCandidate_caches (o : Oracle) (rf : List String) (st : St)
    (r c : String) (hrepo : (lookupA st.repo_files_cache r).isSome = true) :
    (processCandidate o rf st r c).1.repo_files_cache = st.repo_files_cache ∧
    (processCandidate o rf st r c).1.repo_file_sizes_cache =
        st.repo_file_sizes_cache := by
  unfold processCandidate
  dsimp only
  rcases hfil : rf.filter (fun g => basename g = c) with _ | ⟨f, fs⟩
  · dsimp only
    split
    · exact ⟨rfl, rfl⟩
    · exact ⟨rfl, rfl⟩
  · dsimp only
    rcases hh : handleMatch o st r f with ⟨st2, evs2, res2⟩
    have hcm := handleMatch_caches o st r f hrepo
    rw [hh] at hcm
    exact hcm

theorem processList_caches (o : Oracle) (rf : List String) (r : String)
    (cs : List String) : ∀ (st : St),
    (lookupA st.repo_files_cache r).isSome = true →
    (processList o rf r st cs).1.repo_files_cache = st.repo_files_cache ∧
    (processList o rf r st cs).1.repo_file_sizes_cache =
        st.repo_file_sizes_cache := by
  induction cs with
  | nil => intro st _; exact ⟨rfl, rfl⟩
  | cons c rest ih =>
    intro st hrepo
    unfold processList
    rcases hc : processCandidate o rf st r c with ⟨st1, evs1, res1⟩
    have hc1 := processCandidate_caches o rf st r c hrepo
    rw [hc] at hc1
    have hrepo1 : (lookupA st1.repo_files_cache r).isSome = true := by
      rw [hc1.1]
      exact hrepo
    simp only [hc]
    cases res1 with
    | error e => exact hc1
    | ok op =>
      cases op with
      | none =>
        dsimp only
        rcases hr : processList o rf r st1 rest with ⟨st2, evs2, res2⟩
        have hc2 := ih st1 hrepo1
        rw [hr] at hc2
        simp only [hr]
        exact ⟨hc2.1.trans hc1.1, hc2.2.trans hc1.2⟩
      | some p =>
        dsimp only
        rcases hr : processList o rf r st1 rest with ⟨st2, evs2, res2⟩
        have hc2 := ih st1 hrepo1
        rw [hr] at hc2
        try simp only [hr]
        cases res2 with
        | error e => exact ⟨hc2.1.trans hc1.1, hc2.2.trans hc1.2⟩
        | ok ps => exact ⟨hc2.1.trans hc1.1, hc2.2.trans hc1.2⟩

/- The all-hits run: when every resolved path already exists, the loop
only touches files, downloads nothing, and returns the resolved paths. -/

theorem processList_all_hits (o : Oracle) (rf : List String) (r : String)
    (cs : List String) : ∀ (st : St),
    (∀ p ∈ cs.filterMap (resolvedPath rf), fileExists st p = true) →
    ∃ (st' : St) (evs : List Ev),
      processList o rf r st cs =
        (st', evs, Except.ok (cs.filterMap (resolvedPath rf))) ∧
      (∀ e ∈ evs, notFetchEv e) ∧ st'.disk = st.disk := by
  induction cs with
  | nil =>
    intro st _
    exact ⟨st, [], rfl, by simp, rfl⟩
  | cons c rest ih =>
    intro st hex
    rcases hfil : rf.filter (fun g => basename g = c) with _ | ⟨f, fs⟩
    · have hres : resolvedPath rf c = none := by
        unfold resolvedPath
        rw [hfil]
        rfl
      have hskip := processCandidate_skip o rf st r c hfil
      have hex' : ∀ p ∈ rest.filterMap (resolvedPath rf), fileExists st p = true := by
        intro p hp
        exact hex p (by simp only [List.filterMap_cons, hres]; exact hp)
      obtain ⟨st', evs, hpl, hnf, hdisk⟩ := ih st hex'
      unfold processList
      simp only [hskip]
      try dsimp only
      rw [hpl]
      refine ⟨st',
        (if endsWithB c ".safetensors" = true then [Ev.warnNoMatch c] else []) ++ evs,
        ?_, ?_, hdisk⟩
      · simp only [List.filterMap_cons, hres]
      · intro e he
        rcases List.mem_append.mp he with he | he
        · revert he
          split <;> intro he
          · have : e = Ev.warnNoMatch c := by simpa using he
            subst this
            intro r' f'
            simp
          · exact absurd he (by simp)
        · exact hnf e he
    · have hres : resolvedPath rf c = some (joinPath local_base_dir f) := by
        unfold resolvedPath
        rw [hfil]
        rfl
      have hexc : fileExists st (joinPath local_base_dir f) = true :=
        hex _ (by simp [List.filterMap_cons, hres])
      have hstep : processCandidate o rf st r c =
          ((update_access_time st (joinPath local_base_dir f)).1,
           (if fs.isEmpty then [] else [Ev.warnMulti c]) ++
             [Ev.touch (joinPath local_base_dir f)],
           Except.ok (some (joinPath local_base_dir f))) := by
        unfold processCandidate
        dsimp only
        rw [hfil]
        dsimp only
        unfold handleMatch
        dsimp only
        rw [if_pos hexc]
        rfl
      have hdiskT : ((update_access_time st (joinPath local_base_dir f)).1).disk =
          st.disk := rfl
      have hex' : ∀ p ∈ rest.filterMap (resolvedPath rf),
          fileExists (update_access_time st (joinPath local_base_dir f)).1 p = true := by
        intro p hp
        have h0 := hex p
          (by simp only [List.filterMap_cons, hres, List.mem_cons]; exact Or.inr hp)
        unfold fileExists at h0 ⊢
        rw [hdiskT]
        exact h0
      obtain ⟨st', evs, hpl, hnf, hdisk⟩ :=
        ih (update_access_time st (joinPath local_base_dir f)).1 hex'
      unfold processList
      simp only [hstep]
      try dsimp only
      rw [hpl]
      refine ⟨st',
        ((if fs.isEmpty then [] else [Ev.warnMulti c]) ++
          [Ev.touch (joinPath local_base_dir f)]) ++ evs,
        ?_, ?_, hdisk.trans hdiskT⟩
      · simp only [List.filterMap_cons, hres]
      · intro e he
        rcases List.mem_append.mp he with he | he
        · rcases List.mem_append.mp he with he | he
          · revert he
            split <;> intro he
            · exact absurd he (by simp)
            · have : e = Ev.warnMulti c := by simpa using he
              subst this
              intro r' f'
              simp
          · have : e = Ev.touch (joinPath local_base_dir f) := by simpa using he
            subst this
            intro r' f'
            simp
        · exact hnf e he

/- Step-by-step evaluation lemmas, used to settle concrete runs without
re-evaluating the whole pipeline at once. -/

theorem processList_cons_some (o : Oracle) (rf : List String) (r : String)
    (st : St) (c : String) (rest : List String) (st1 : St) (evs1 : List Ev)
    (p : String) (st2 : St) (evs2 : List Ev) (ps : List String)
    (h1 : processCandidate o rf st r c = (st1, evs1, Except.ok (some p)))
    (h2 : processList o rf r st1 rest = (st2, evs2, Except.ok ps)) :
    processList o rf r st (c :: rest) = (st2, evs1 ++ evs2, Except.ok (p :: ps)) := by
  unfold processList
  rw [h1]
  dsimp only
  rw [h2]

theorem download_models_eval (o : Oracle) (st : St) (obj : Value) (r : String)
    (cs : List String) (stG : St) (evsG : List Ev) (F : List String)
    (stP : St) (evsP : List Ev) (res : Except Unit (List String))
    (hcs : find_all_strings obj [] = cs) (hne : cs ≠ [])
    (hg : get_repo_files o st r = (stG, evsG, Except.ok F))
    (hp : processList o F r stG cs = (stP, evsP, res)) :
    download_models o st obj r = (stP, evsG ++ evsP, res) := by
  unfold download_models
  dsimp only
  rw [hcs]
  rw [if_neg (by simpa [List.isEmpty_iff] using hne)]
  rw [hg]
  dsimp only
  rw [hp]

theorem cex_g : get_repo_files oracleTwoSmall stTight "org/model" =
    (stT_G, [Ev.metaFetch "org/model"], Except.ok ["a.bin", "b.bin"]) := rfl

theorem cex_a : processCandidate oracleTwoSmall ["a.bin", "b.bin"] stT_G
    "org/model" "a.bin" =
    (stT_A,
     [Ev.ensure "/ComfyUI/models" 1, Ev.fetch "org/model" "a.bin",
      Ev.touch "/ComfyUI/models/a.bin"],
     Except.ok (some "/ComfyUI/models/a.bin")) := rfl

theorem cex_b : processCandidate oracleTwoSmall ["a.bin", "b.bin"] stT_A
    "org/model" "b.bin" =
    (stT_B,
     [Ev.ensure "/ComfyUI/models" 1, Ev.evict "/ComfyUI/models/a.bin",
      Ev.fetch "org/model" "b.bin", Ev.touch "/ComfyUI/models/b.bin"],
     Except.ok (some "/ComfyUI/models/b.bin")) := rfl

theorem cex_first : download_models oracleTwoSmall stTight objTwo "org/model" =
    (stT_B,
     [Ev.metaFetch "org/model", Ev.ensure "/ComfyUI/models" 1,
      Ev.fetch "org/model" "a.bin", Ev.touch "/ComfyUI/models/a.bin",
      Ev.ensure "/ComfyUI/models" 1, Ev.evict "/ComfyUI/models/a.bin",
      Ev.fetch "org/model" "b.bin", Ev.touch "/ComfyUI/models/b.bin"],
     Except.ok ["/ComfyUI/models/a.bin", "/ComfyUI/models/b.bin"]) := by
  have hpl := processList_cons_some _ _ _ _ _ _ _ _ _ _ _ _ cex_a
    (processList_cons_some _ _ _ _ _ _ _ _ _ _ _ _ cex_b
      (processList_nil oracleTwoSmall ["a.bin", "b.bin"] "org/model" stT_B))
  have h := download_models_eval oracleTwoSmall stTight objTwo "org/model"
    _ _ _ _ _ _ _ find_objTwo (by decide) cex_g hpl
  simpa using h

theorem cex_g2 : get_repo_files oracleTwoSmall stT_B "org/model" =
    (stT_B, [], Except.ok ["a.bin", "b.bin"]) := rfl

theorem cex_a2 : processCandidate oracleTwoSmall ["a.bin", "b.bin"] stT_B
    "org/model" "a.bin" =
    (stT_C,
     [Ev.ensure "/ComfyUI/models" 1, Ev.evict "/ComfyUI/models/b.bin",
      Ev.fetch "org/model" "a.bin", Ev.touch "/ComfyUI/models/a.bin"],
     Except.ok (some "/ComfyUI/models/a.bin")) := rfl

theorem cex_b2 : processCandidate oracleTwoSmall ["a.bin", "b.bin"] stT_C
    "org/model" "b.bin" =
    (stT_D,
     [Ev.ensure "/ComfyUI/models" 1, Ev.evict "/ComfyUI/models/a.bin",
      Ev.fetch "org/model" "b.bin", Ev.touch "/ComfyUI/models/b.bin"],
     Except.ok (some "/ComfyUI/models/b.bin")) := rfl

theorem cex_second : download_models oracleTwoSmall stT_B objTwo "org/model" =
    (stT_D,
     [Ev.ensure "/ComfyUI/models" 1, Ev.evict "/ComfyUI/models/b.bin",
      Ev.fetch "org/model" "a.bin", Ev.touch "/ComfyUI/models/a.bin",
      Ev.ensure "/ComfyUI/models" 1, Ev.evict "/ComfyUI/models/a.bin",
      Ev.fetch "org/model" "b.bin", Ev.touch "/ComfyUI/models/b.bin"],
     Except.ok ["/ComfyUI/models/a.bin", "/ComfyUI/models/b.bin"]) := by
  have hpl := processList_cons_some _ _ _ _ _ _ _ _ _ _ _ _ cex_a2
    (processList_cons_some _ _ _ _ _ _ _ _ _ _ _ _ cex_b2
      (processList_nil oracleTwoSmall ["a.bin", "b.bin"] "org/model" stT_D))
  have h := download_models_eval oracleTwoSmall stT_B objTwo "org/model"
    _ _ _ _ _ _ _ find_objTwo (by decide) cex_g2 hpl
  simpa using h

/-- C3 counterexample: starting from an almost-full disk, a first call
resolving `a.bin` and `b.bin` fully succeeds (returning both paths), yet
the eviction run for `b.bin` deletes the freshly downloaded `a.bin`, so
a second identical call performs another external download. -/
theorem download_models_not_idempotent :
    (download_models oracleTwoSmall stTight objTwo "org/model").2.2 =
      Except.ok ["/ComfyUI/models/a.bin", "/ComfyUI/models/b.bin"] ∧
    Ev.fetch "org/model" "a.bin" ∈
      (download_models oracleTwoSmall
        (download_models oracleTwoSmall stTight objTwo "org/model").1
        objTwo "org/model").2.1 := by
  constructor
  · rw [cex_first]
  · rw [cex_first]
    dsimp only
    rw [cex_second]
    decide

/-- C3 (amended): if a first `download_models` call fully succeeded and
every path it returned still exists on disk at its end (no eviction
during that call removed a file the call itself had resolved), then a
second call with the same input and repo id returns the same sequence of
paths and performs zero external download calls. -/
theorem download_models_idempotent_of_persistent
    (o : Oracle) (st : St) (obj : Value) (repo_id : String)
    (st1 : St) (evs1 : List Ev) (paths : List String)
    (h1 : download_models o st obj repo_id = (st1, evs1, Except.ok paths))
    (h2 : ∀ p ∈ paths, fileExists st1 p = true) :
    ∃ (st2 : St) (evs2 : List Ev),
      download_models o st1 obj repo_id = (st2, evs2, Except.ok paths) ∧
      ∀ e ∈ evs2, notFetchEv e := by
  unfold download_models at h1 ⊢
  try dsimp only at h1 ⊢
  by_cases hemp : (find_all_strings obj []).isEmpty = true
  · rw [if_pos hemp] at h1 ⊢
    have hps : ([] : List String) = paths :=
      Except.ok.inj (congrArg (fun t => t.2.2) h1)
    have hst : st = st1 := congrArg (fun t => t.1) h1
    exact ⟨st1, [], by rw [← hps], by simp⟩
  · rw [if_neg hemp] at h1 ⊢
    rcases hg : get_repo_files o st repo_id with ⟨stG, evsG, resG⟩
    simp only [hg] at h1
    cases resG with
    | error e => exact absurd (congrArg (fun t => t.2.2) h1) (by simp)
    | ok F =>
      try dsimp only at h1
      rcases hp : processList o F repo_id stG (find_all_strings obj [])
        with ⟨stP, evsP, resP⟩
      simp only [hp] at h1
      cases resP with
      | error e => exact absurd (congrArg (fun t => t.2.2) h1) (by simp)
      | ok ps =>
        try dsimp only at h1
        have hst1 : stP = st1 := congrArg (fun t => t.1) h1
        have hps : ps = paths := Except.ok.inj (congrArg (fun t => t.2.2) h1)
        have hpaths : paths = (find_all_strings obj []).filterMap (resolvedPath F) := by
          rw [← hps]
          exact processList_ok_paths o F repo_id _ stG stP evsP ps hp
        have hcache : lookupA stG.repo_files_cache repo_id = some F :=
          get_repo_files_ok_cached o st repo_id stG evsG F hg
        have hpres := processList_caches o F repo_id (find_all_strings obj []) stG
          (by rw [hcache]; rfl)
        rw [hp] at hpres
        have hcache1 : lookupA st1.repo_files_cache repo_id = some F := by
          rw [← hst1, hpres.1, hcache]
        have hg1 : get_repo_files o st1 repo_id = (st1, [], Except.ok F) := by
          unfold get_repo_files
          rw [hcache1]
        rw [hg1]
        try dsimp only
        obtain ⟨st2, evs2, hpl2, hnf, _⟩ :=
          processList_all_hits o F repo_id (find_all_strings obj []) st1
            (by rw [← hpaths]; exact h2)
        rw [hpl2]
        refine ⟨st2, [] ++ evs2, ?_, ?_⟩
        · rw [hpaths]
        · intro e he
          exact hnf e (by simpa using he)

theorem roomy_g : get_repo_files oracleTwoSmall stRoomy "org/model" =
    (stR_G, [Ev.metaFetch "org/model"], Except.ok ["a.bin", "b.bin"]) := rfl

theorem roomy_a : processCandidate oracleTwoSmall ["a.bin", "b.bin"] stR_G
    "org/model" "a.bin" =
    (stR_A,
     [Ev.ensure "/ComfyUI/models" 1, Ev.fetch "org/model" "a.bin",
      Ev.touch "/ComfyUI/models/a.bin"],
     Except.ok (some "/ComfyUI/models/a.bin")) := rfl

theorem roomy_b : processCandidate oracleTwoSmall ["a.bin", "b.bin"] stR_A
    "org/model" "b.bin" =
    (stRoomy1,
     [Ev.ensure "/ComfyUI/models" 1, Ev.fetch "org/model" "b.bin",
      Ev.touch "/ComfyUI/models/b.bin"],
     Except.ok (some "/ComfyUI/models/b.bin")) := rfl

/-- Witness for the amended C3: with ample free space the first call
downloads both files, both persist, and the second call returns the same
paths with no download events. -/
theorem download_models_idempotent_of_persistent_witness :
    ∃ (st2 : St) (evs2 : List Ev),
      download_models oracleTwoSmall stRoomy1 objTwo "org/model" =
        (st2, evs2, Except.ok ["/ComfyUI/models/a.bin", "/ComfyUI/models/b.bin"]) ∧
      ∀ e ∈ evs2, notFetchEv e := by
  have hpl := processList_cons_some _ _ _ _ _ _ _ _ _ _ _ _ roomy_a
    (processList_cons_some _ _ _ _ _ _ _ _ _ _ _ _ roomy_b
      (processList_nil oracleTwoSmall ["a.bin", "b.bin"] "org/model" stRoomy1))
  have h1 := download_models_eval oracleTwoSmall stRoomy objTwo "org/model"
    _ _ _ _ _ _ _ find_objTwo (by decide) roomy_g hpl
  exact download_models_idempotent_of_persistent oracleTwoSmall stRoomy objTwo
    "org/model" stRoomy1 _ _ h1 (by decide)

end HF
